import Mathlib

/-!
Verification of the incremental text-to-speech relay implemented in
src/core/src/app/api/chat/route.ts.

The development has three layers, each a shallow embedding of a part of the
source file:

1. Sentence segmenter (route.ts lines 350-377 and 320-328): the handlers for
   text-delta, finish and done events, operating on the sentence buffer with
   the regex split on sentence terminators and the JS trim.  Strings are
   modelled as lists of characters.

2. SSE transform (route.ts lines 302-384): the TransformStream callback that
   forwards every raw chunk to the consumer and, on the side, splits the SSE
   buffer into event blocks and feeds them to the segmenter.  JSON parsing is
   a parameter, so every theorem about the forwarded stream holds for every
   possible parse outcome.

3. Relay coordinator (route.ts lines 160-300): the TTS queue, the
   processingQueue flag, the ffplay process handle and close promise, the
   processQueue worker loop, stopTTS and the abort listener.  The cooperative
   single-threaded semantics of the async code is modelled as a small-step
   transition system: a step runs the synchronous segment between two await
   points atomically, and the environment chooses which suspended task resumes
   next.
-/

/-- Whitespace test used to model the JS trim and the regex class \s. -/
def jsWs (c : Char) : Bool :=
  c == ' ' || c == '\t' || c == '\n' || c == '\r' || c == '\x0b' || c == '\x0c'

/-- Sentence terminator class of the regex in route.ts line 356. -/
def isTerminator (c : Char) : Bool :=
  c == '.' || c == '!' || c == '?'

/-- Leading-whitespace removal, the left half of the JS trim. -/
def trimLeftL (l : List Char) : List Char := l.dropWhile jsWs

/-- Trailing-whitespace removal, the right half of the JS trim. -/
def trimRightL (l : List Char) : List Char := (l.reverse.dropWhile jsWs).reverse

/-- Model of the JS String.prototype.trim. -/
def jsTrim (l : List Char) : List Char := trimRightL (trimLeftL l)

/-- Characters of a string that are not whitespace, in order. -/
def stripWs (l : List Char) : List Char := l.filter (fun c => !jsWs c)

/-- Model of the two regex operations on the sentence buffer in route.ts
lines 356 and 365: the matched sentences (each a maximal terminator-free run
followed by one terminator) and the remainder left by replacing every match
with the empty string.  The first argument accumulates the current run in
reverse. -/
def matchSentences : List Char → List Char → List (List Char) × List Char
  | pending, [] => ([], pending.reverse)
  | pending, c :: rest =>
    if isTerminator c then
      let r := matchSentences [] rest
      ((pending.reverse ++ [c]) :: r.1, r.2)
    else
      matchSentences (c :: pending) rest

/-- State of the sentence segmenter: the response-wide transcript and the
buffer holding the trailing incomplete sentence (route.ts lines 151-152). -/
structure SegState where
  accumulatedText : List Char
  sentenceBuffer : List Char
deriving DecidableEq, Repr

/-- Handler for a text-delta payload (route.ts lines 350-367): append the
piece to the buffer and the transcript, emit each complete sentence trimmed
when its trim is non-empty, and keep the remainder in the buffer.  When no
sentence is complete the match returns null and the buffer is left as the
appended buffer, which coincides with the remainder computed here. -/
def onTextDelta (st : SegState) (piece : List Char) : SegState × List (List Char) :=
  let buffer := st.sentenceBuffer ++ piece
  let m := matchSentences [] buffer
  (⟨st.accumulatedText ++ piece, m.2⟩,
   (m.1.map jsTrim).filter (fun u => !u.isEmpty))

/-- Flush of the remaining buffer on a finish part (route.ts lines 370-375)
or a DONE sentinel (lines 320-328): emit the trimmed buffer when its trim is
non-empty, in which case the buffer is cleared. -/
def flushBuffer (st : SegState) : SegState × List (List Char) :=
  if !(jsTrim st.sentenceBuffer).isEmpty then
    (⟨st.accumulatedText, []⟩, [jsTrim st.sentenceBuffer])
  else
    (st, [])

/-- Stream events consumed by the segmenter, after SSE decoding and JSON
field access. -/
inductive StreamEvent where
  | textDelta (piece : List Char)
  | finish
  | done
deriving DecidableEq, Repr

/-- Dispatch of one stream event to the segmenter handlers.  The finish part
and the DONE sentinel run the same flush code. -/
def onEvent (st : SegState) : StreamEvent → SegState × List (List Char)
  | .textDelta p => onTextDelta st p
  | .finish => flushBuffer st
  | .done => flushBuffer st

/-- Run of the segmenter over a list of stream events, concatenating the
emitted text units in emission order. -/
def runEvents (st : SegState) : List StreamEvent → SegState × List (List Char)
  | [] => (st, [])
  | e :: es =>
    let r := onEvent st e
    let r2 := runEvents r.1 es
    (r2.1, r.2 ++ r2.2)

/-- Segmenter state at response start. -/
def initSeg : SegState := ⟨[], []⟩

/-- Text pieces carried by the text-delta events of a list, in order. -/
def deltaPieces (evs : List StreamEvent) : List (List Char) :=
  evs.filterMap (fun e => match e with | .textDelta p => some p | _ => none)

/- ### Basic lemmas about the trim model -/

theorem dropWhile_idem (p : Char → Bool) (l : List Char) :
    (l.dropWhile p).dropWhile p = l.dropWhile p := by
  induction l with
  | nil => rfl
  | cons a l ih =>
    by_cases h : p a
    · simp [List.dropWhile_cons, h, ih]
    · simp [List.dropWhile_cons, h]

theorem head_dropWhile_false (p : Char → Bool) (l : List Char) (a : Char)
    (h : (l.dropWhile p).head? = some a) : p a = false := by
  induction l with
  | nil => simp at h
  | cons b l ih =>
    by_cases hb : p b
    · simp [List.dropWhile_cons, hb] at h
      exact ih h
    · simp [List.dropWhile_cons, hb] at h
      subst h
      simp [hb]

theorem dropWhile_exists_take (p : Char → Bool) (l : List Char) :
    ∃ t, t ++ l.dropWhile p = l := by
  induction l with
  | nil => exact ⟨[], rfl⟩
  | cons a l ih =>
    by_cases h : p a
    · obtain ⟨t, ht⟩ := ih
      exact ⟨a :: t, by simp [List.dropWhile_cons, h, ht]⟩
    · exact ⟨[], by simp [List.dropWhile_cons, h]⟩

theorem trimRightL_exists_rest (l : List Char) :
    ∃ t, trimRightL l ++ t = l := by
  obtain ⟨t, ht⟩ := dropWhile_exists_take jsWs l.reverse
  refine ⟨t.reverse, ?_⟩
  have := congrArg List.reverse ht
  simpa [trimRightL] using this

theorem trimLeftL_idem (l : List Char) : trimLeftL (trimLeftL l) = trimLeftL l :=
  dropWhile_idem jsWs l

theorem trimRightL_idem (l : List Char) :
    trimRightL (trimRightL l) = trimRightL l := by
  simp [trimRightL, dropWhile_idem]

theorem trimLeftL_trimRightL (l : List Char)
    (h : trimLeftL l = l) : trimLeftL (trimRightL l) = trimRightL l := by
  obtain ⟨t, ht⟩ := trimRightL_exists_rest l
  cases hr : trimRightL l with
  | nil => rfl
  | cons a t' =>
    have hl : l = a :: (t' ++ t) := by rw [← ht, hr]; simp
    have ha : jsWs a = false := by
      apply head_dropWhile_false jsWs l
      rw [trimLeftL] at h
      rw [h, hl]
      rfl
    simp [trimLeftL, List.dropWhile_cons, ha]

theorem jsTrim_idem (l : List Char) : jsTrim (jsTrim l) = jsTrim l := by
  unfold jsTrim
  rw [trimLeftL_trimRightL (trimLeftL l) (trimLeftL_idem l), trimRightL_idem]

theorem stripWs_append (l₁ l₂ : List Char) :
    stripWs (l₁ ++ l₂) = stripWs l₁ ++ stripWs l₂ := by
  simp [stripWs]

theorem stripWs_dropWhile (l : List Char) :
    stripWs (l.dropWhile jsWs) = stripWs l := by
  induction l with
  | nil => rfl
  | cons a l ih =>
    by_cases h : jsWs a
    · simpa [List.dropWhile_cons, h, stripWs] using ih
    · simp [List.dropWhile_cons, h]

theorem stripWs_reverse (l : List Char) :
    stripWs l.reverse = (stripWs l).reverse := by
  simp [stripWs, List.filter_reverse]

theorem stripWs_trimLeftL (l : List Char) : stripWs (trimLeftL l) = stripWs l :=
  stripWs_dropWhile l

theorem stripWs_trimRightL (l : List Char) :
    stripWs (trimRightL l) = stripWs l := by
  have := stripWs_dropWhile l.reverse
  have h2 := congrArg List.reverse this
  simpa [trimRightL, stripWs_reverse] using h2

theorem stripWs_jsTrim (l : List Char) : stripWs (jsTrim l) = stripWs l := by
  rw [jsTrim, stripWs_trimRightL, stripWs_trimLeftL]

/- ### The match model splits the buffer without loss -/

theorem matchSentences_flatten (l : List Char) :
    ∀ pending, (matchSentences pending l).1.flatten ++ (matchSentences pending l).2
      = pending.reverse ++ l := by
  induction l with
  | nil => intro pending; simp [matchSentences]
  | cons c rest ih =>
    intro pending
    by_cases h : isTerminator c
    · simp only [matchSentences, h, if_pos]
      have := ih []
      simp only [List.flatten_cons, List.append_assoc]
      simp at this
      simp [this]
    · simp only [matchSentences, h, if_neg, Bool.false_eq_true, not_false_iff]
      have := ih (c :: pending)
      simpa using this

/- ### Conservation of non-whitespace text through the segmenter -/

/-- Delta text carried by one event. -/
def deltaOf : StreamEvent → List Char
  | .textDelta p => p
  | _ => []

theorem deltaPieces_cons (e : StreamEvent) (es : List StreamEvent) :
    (deltaPieces (e :: es)).flatten = deltaOf e ++ (deltaPieces es).flatten := by
  cases e <;> simp [deltaPieces, deltaOf]

theorem stripWs_flatten_trimFilter (ss : List (List Char)) :
    stripWs (((ss.map jsTrim).filter (fun u => !u.isEmpty)).flatten)
      = stripWs ss.flatten := by
  induction ss with
  | nil => rfl
  | cons s ss ih =>
    by_cases h : (jsTrim s).isEmpty
    · have h0 : jsTrim s = [] := by simpa using h
      have hs : stripWs s = [] := by rw [← stripWs_jsTrim, h0]; rfl
      simp [List.filter_cons, h, stripWs_append, hs, ih]
    · simp [List.filter_cons, h, stripWs_append, stripWs_jsTrim, ih]

theorem onEvent_strip (st : SegState) (e : StreamEvent) :
    stripWs ((onEvent st e).2.flatten ++ (onEvent st e).1.sentenceBuffer)
      = stripWs (st.sentenceBuffer ++ deltaOf e) := by
  cases e with
  | textDelta p =>
    simp only [onEvent, onTextDelta, deltaOf]
    rw [stripWs_append, stripWs_flatten_trimFilter, ← stripWs_append]
    have := matchSentences_flatten (st.sentenceBuffer ++ p) []
    simp at this
    rw [this]
  | finish =>
    simp only [onEvent, flushBuffer, deltaOf]
    by_cases h : (jsTrim st.sentenceBuffer).isEmpty
    · simp [h]
    · simp [h, stripWs_jsTrim]
  | done =>
    simp only [onEvent, flushBuffer, deltaOf]
    by_cases h : (jsTrim st.sentenceBuffer).isEmpty
    · simp [h]
    · simp [h, stripWs_jsTrim]

theorem runEvents_strip (evs : List StreamEvent) :
    ∀ st, stripWs ((runEvents st evs).2.flatten ++ (runEvents st evs).1.sentenceBuffer)
      = stripWs (st.sentenceBuffer ++ (deltaPieces evs).flatten) := by
  induction evs with
  | nil => intro st; simp [runEvents, deltaPieces]
  | cons e es ih =>
    intro st
    have h1 : stripWs (onEvent st e).2.flatten ++ stripWs (onEvent st e).1.sentenceBuffer
        = stripWs st.sentenceBuffer ++ stripWs (deltaOf e) := by
      rw [← stripWs_append, ← stripWs_append, onEvent_strip]
    show stripWs (((onEvent st e).2 ++ (runEvents (onEvent st e).1 es).2).flatten
        ++ (runEvents (onEvent st e).1 es).1.sentenceBuffer)
      = stripWs (st.sentenceBuffer ++ (deltaPieces (e :: es)).flatten)
    rw [List.flatten_append, List.append_assoc, stripWs_append, ih,
        stripWs_append, deltaPieces_cons, stripWs_append, stripWs_append,
        ← List.append_assoc, h1, List.append_assoc]

theorem onEvent_accumulated (st : SegState) (e : StreamEvent) :
    (onEvent st e).1.accumulatedText = st.accumulatedText ++ deltaOf e := by
  cases e with
  | textDelta p => simp [onEvent, onTextDelta, deltaOf]
  | finish =>
    simp only [onEvent, flushBuffer, deltaOf]
    by_cases h : (jsTrim st.sentenceBuffer).isEmpty <;> simp [h]
  | done =>
    simp only [onEvent, flushBuffer, deltaOf]
    by_cases h : (jsTrim st.sentenceBuffer).isEmpty <;> simp [h]

theorem runEvents_accumulated (evs : List StreamEvent) :
    ∀ st, (runEvents st evs).1.accumulatedText
      = st.accumulatedText ++ (deltaPieces evs).flatten := by
  induction evs with
  | nil => intro st; simp [runEvents, deltaPieces]
  | cons e es ih =>
    intro st
    simp only [runEvents, deltaPieces_cons]
    rw [ih, onEvent_accumulated, List.append_assoc]

theorem deltaPieces_of_map (pieces : List (List Char)) (tail : List StreamEvent)
    (htail : deltaPieces tail = []) :
    deltaPieces (pieces.map StreamEvent.textDelta ++ tail) = pieces := by
  induction pieces with
  | nil => simpa using htail
  | cons p ps ih =>
    simp only [List.map_cons, List.cons_append, deltaPieces, List.filterMap_cons]
    simpa [deltaPieces] using ih

/- ### Emitted units are trimmed and non-empty -/

/-- Property required of every text enqueued for synthesis: non-empty and
free of leading or trailing whitespace (fixed by the JS trim). -/
def goodUnit (u : List Char) : Bool := !u.isEmpty && (jsTrim u == u)

theorem onEvent_emissions_good (st : SegState) (e : StreamEvent) :
    ((onEvent st e).2).all goodUnit = true := by
  cases e with
  | textDelta p =>
    simp only [onEvent, onTextDelta]
    rw [List.all_eq_true]
    intro u hu
    simp only [List.mem_filter, List.mem_map] at hu
    obtain ⟨⟨s, _, rfl⟩, hne⟩ := hu
    simp [goodUnit, hne, jsTrim_idem]
  | finish =>
    simp only [onEvent, flushBuffer]
    by_cases h : (jsTrim st.sentenceBuffer).isEmpty
    · simp [h]
    · simp [h, goodUnit, jsTrim_idem]
  | done =>
    simp only [onEvent, flushBuffer]
    by_cases h : (jsTrim st.sentenceBuffer).isEmpty
    · simp [h]
    · simp [h, goodUnit, jsTrim_idem]

theorem runEvents_emissions_good (evs : List StreamEvent) :
    ∀ st, ((runEvents st evs).2).all goodUnit = true := by
  induction evs with
  | nil => intro st; rfl
  | cons e es ih =>
    intro st
    show (((onEvent st e).2 ++ (runEvents (onEvent st e).1 es).2).all goodUnit) = true
    rw [List.all_append]
    simp [onEvent_emissions_good, ih]

/- ### Concrete inputs used by the segmenter claims -/

/-- First delta of the sentence boundary test. -/
def helloWor : List Char := ("Hello wor").data

/-- Second delta of the sentence boundary test. -/
def ldHowAre : List Char := ("ld. How are").data

/-- Third delta of the sentence boundary test. -/
def youQ : List Char := (" you?").data

/-- First text unit of the sentence boundary test. -/
def helloWorld : List Char := ("Hello world.").data

/-- Second text unit of the sentence boundary test. -/
def howAreYou : List Char := ("How are you?").data

/-- Delta exhibiting inter-sentence whitespace loss. -/
def hiYo : List Char := ("Hi. Yo.").data

/- ### Claim theorems about the segmenter -/

/-- C4 counterexample: for the single delta "Hi. Yo." followed by finish,
the concatenation of the emitted units plus the remaining buffer is
"Hi.Yo.", while the accumulated transcript is "Hi. Yo."; the space between
the sentences is lost because each unit is trimmed before being enqueued, so
the concatenation is not equal to the transcript as the claim states. -/
theorem c4_counterexample :
    ((runEvents initSeg [StreamEvent.textDelta hiYo, StreamEvent.finish]).2.flatten
        ++ (runEvents initSeg [StreamEvent.textDelta hiYo, StreamEvent.finish]).1.sentenceBuffer
      = ("Hi.Yo.").data)
    ∧ (runEvents initSeg [StreamEvent.textDelta hiYo, StreamEvent.finish]).1.accumulatedText
      = hiYo
    ∧ ("Hi.Yo.").data ≠ hiYo := by decide

/-- C4 amended: for every sequence of text-delta pieces followed by finish,
concatenating the emitted units in emission order plus any remaining buffer
equals the accumulated transcript up to whitespace: every non-whitespace
character that entered the buffer appears exactly once and in original
order, but inter-sentence whitespace is dropped by the per-unit trim.  The
transcript itself accumulates the deltas verbatim. -/
theorem c4_amended (pieces : List (List Char)) :
    stripWs ((runEvents initSeg (pieces.map StreamEvent.textDelta
          ++ [StreamEvent.finish])).2.flatten
        ++ (runEvents initSeg (pieces.map StreamEvent.textDelta
          ++ [StreamEvent.finish])).1.sentenceBuffer)
      = stripWs pieces.flatten
    ∧ (runEvents initSeg (pieces.map StreamEvent.textDelta
          ++ [StreamEvent.finish])).1.accumulatedText
      = pieces.flatten := by
  have hd : deltaPieces (pieces.map StreamEvent.textDelta ++ [StreamEvent.finish])
      = pieces := deltaPieces_of_map pieces [StreamEvent.finish] rfl
  constructor
  · have := runEvents_strip (pieces.map StreamEvent.textDelta ++ [StreamEvent.finish]) initSeg
    rw [hd] at this
    simpa [initSeg] using this
  · have := runEvents_accumulated (pieces.map StreamEvent.textDelta ++ [StreamEvent.finish]) initSeg
    rw [hd] at this
    simpa [initSeg] using this

/-- C7 counterexample: with deltas "Hello wor", "ld. How are", " you?", the
unit "How are you?" is already emitted upon the third delta (because the
third delta completes the sentence with its question mark), and the finish
event then emits nothing, contradicting the claim that "How are you?" is
emitted on finish. -/
theorem c7_counterexample :
    (runEvents initSeg [StreamEvent.textDelta helloWor, StreamEvent.textDelta ldHowAre,
        StreamEvent.textDelta youQ]).2 = [helloWorld, howAreYou]
    ∧ (onEvent (runEvents initSeg [StreamEvent.textDelta helloWor,
        StreamEvent.textDelta ldHowAre, StreamEvent.textDelta youQ]).1
        StreamEvent.finish).2 = []
    ∧ ([] : List (List Char)) ≠ [howAreYou] := by decide

/-- C7 amended: the segmenter emits "Hello world." upon the second delta and
"How are you?" upon the third delta; the finish event emits no further unit,
so the overall emission sequence is unchanged by finish. -/
theorem c7_amended :
    (runEvents initSeg [StreamEvent.textDelta helloWor,
        StreamEvent.textDelta ldHowAre]).2 = [helloWorld]
    ∧ (runEvents initSeg [StreamEvent.textDelta helloWor, StreamEvent.textDelta ldHowAre,
        StreamEvent.textDelta youQ]).2 = [helloWorld, howAreYou]
    ∧ (runEvents initSeg [StreamEvent.textDelta helloWor, StreamEvent.textDelta ldHowAre,
        StreamEvent.textDelta youQ, StreamEvent.finish]).2
      = [helloWorld, howAreYou] := by decide

/-- C10: every text unit emitted by the segmenter over any event sequence -
hence every string enqueued as a Speak item and passed to the synthesis call -
is non-empty and equal to its own trim, i.e. it carries no leading or
trailing whitespace.  Both the per-sentence path and the flush paths enqueue
only a trimmed string guarded by a non-empty-trim test. -/
theorem c10_trimmed_nonempty (evs : List StreamEvent) :
    ((runEvents initSeg evs).2).all goodUnit = true :=
  runEvents_emissions_good evs initSeg

/- ### SSE transform layer (route.ts lines 302-384) -/

/-- Action pushed on the TTS queue by the transform callback. -/
inductive TtsAction where
  | speakA (t : List Char)
  | endA
deriving DecidableEq, Repr

/-- Fields of a parsed SSE data payload that the transform reads: the type
tag and the optional delta string (route.ts lines 339-341, 350). -/
structure Payload where
  typeTag : Option (List Char)
  delta : Option (List Char)

/-- State of the transform callback: segmenter state, the SSE reassembly
buffer, and the log of TTS actions enqueued so far. -/
structure TState where
  seg : SegState
  sseBuffer : List Char
  actions : List TtsAction

/-- Index of the first blank-line separator: the event block before the
first "\n\n" and the rest after it, or none when no separator is present
(route.ts line 313). -/
def splitFirstSep : List Char → Option (List Char × List Char)
  | [] => none
  | '\n' :: '\n' :: rest => some ([], rest)
  | c :: rest => (splitFirstSep rest).map (fun pr => (c :: pr.1, pr.2))

/-- Split on newline characters, the model of String.prototype.split with
separator "\n" (route.ts line 318). -/
def splitLines : List Char → List (List Char)
  | [] => [[]]
  | '\n' :: rest => [] :: splitLines rest
  | c :: rest =>
    match splitLines rest with
    | [] => [[c]]
    | l :: ls => (c :: l) :: ls

/-- Boolean test that pat occurs at the start of l. -/
def hasPrefL (l pat : List Char) : Bool :=
  match l, pat with
  | _, [] => true
  | [], _ :: _ => false
  | c :: cs, p :: ps => c == p && hasPrefL cs ps

/-- Boolean test that pat occurs somewhere in l, the model of
String.prototype.includes (route.ts line 320). -/
def containsSeq : List Char → List Char → Bool
  | [], pat => hasPrefL [] pat
  | l@(_ :: rest), pat => hasPrefL l pat || containsSeq rest pat

/-- The DONE sentinel looked for in event lines. -/
def doneToken : List Char := ("[DONE]").data

/-- The data field marker of an SSE payload line. -/
def dataMarker : List Char := ("data:").data

/-- Removal of the leading data marker and at most one following whitespace
character, the model of the replace of the regex on route.ts line 334. -/
def stripDataMarker (l : List Char) : List Char :=
  let r := l.drop 5
  match r with
  | c :: rest => if jsWs c then rest else r
  | [] => []

/-- Processing of one complete SSE event block (route.ts lines 317-381):
filter out blank and comment lines, honour the DONE sentinel, join the data
payload lines, parse them with the given JSON parser, and dispatch
text-delta and finish parts to the segmenter handlers, recording every
enqueued TTS action.  A parse failure or an unrecognized payload leaves the
state unchanged apart from the consumed block. -/
def processBlock (parse : List Char → Option Payload) (st : TState)
    (block : List Char) : TState :=
  let lines := (splitLines block).filter
    (fun l => !(jsTrim l).isEmpty && !(hasPrefL l [':']))
  if lines.any (fun l => containsSeq l doneToken) then
    let r := flushBuffer st.seg
    { st with seg := r.1,
              actions := st.actions ++ r.2.map TtsAction.speakA ++ [TtsAction.endA] }
  else
    let dataLines := (lines.filter (fun l => hasPrefL l dataMarker)).map stripDataMarker
    if dataLines.isEmpty then st
    else
      match parse (List.intercalate ['\n'] dataLines) with
      | none => st
      | some p =>
        match p.typeTag with
        | none => st
        | some t =>
          let st1 :=
            if t == ("text-delta").data then
              match p.delta with
              | some d =>
                let r := onTextDelta st.seg d
                { st with seg := r.1, actions := st.actions ++ r.2.map TtsAction.speakA }
              | none => st
            else st
          if t == ("finish").data then
            let r := flushBuffer st1.seg
            { st1 with seg := r.1,
                       actions := st1.actions ++ r.2.map TtsAction.speakA ++ [TtsAction.endA] }
          else st1

/-- The while loop of the transform callback (route.ts lines 312-382):
repeatedly take the event block before the first blank-line separator out of
the SSE buffer and process it.  The fuel bounds the number of iterations;
one more than the buffer length always suffices because every iteration
consumes the two separator characters. -/
def processSse (parse : List Char → Option Payload) : TState → Nat → TState
  | st, 0 => st
  | st, fuel + 1 =>
    match splitFirstSep st.sseBuffer with
    | none => st
    | some (block, rest) =>
      processSse parse (processBlock parse { st with sseBuffer := rest } block) fuel

/-- The transform callback (route.ts lines 303-383): the received chunk is
forwarded to the controller unchanged and first; afterwards the chunk is
decoded, appended to the SSE buffer and the complete event blocks are
processed.  The returned list is exactly what is enqueued downstream. -/
def transformChunk (parse : List Char → Option Payload) (st : TState)
    (chunk : List Char) : TState × List (List Char) :=
  let st1 : TState := { st with sseBuffer := st.sseBuffer ++ chunk }
  (processSse parse st1 (st1.sseBuffer.length + 1), [chunk])

/-- Run of the transform over a list of upstream chunks, concatenating the
chunks enqueued for the consumer. -/
def runTransform (parse : List Char → Option Payload) (st : TState) :
    List (List Char) → TState × List (List Char)
  | [] => (st, [])
  | c :: cs =>
    let r := transformChunk parse st c
    let r2 := runTransform parse r.1 cs
    (r2.1, r.2 ++ r2.2)

/-- C1: pass-through fidelity.  For every JSON parser behaviour, every
transform state and every sequence of upstream chunks, the sequence of
chunks forwarded to the original consumer is exactly the upstream sequence,
unchanged and in order.  The forwarded stream is independent of the
segmenter state, of the parse outcomes and of everything on the audio path,
because the callback enqueues the raw chunk before and regardless of any TTS
processing, and all TTS work is confined to the state component. -/
theorem c1_passthrough (parse : List Char → Option Payload) (st : TState)
    (chunks : List (List Char)) :
    (runTransform parse st chunks).2 = chunks := by
  induction chunks generalizing st with
  | nil => rfl
  | cons c cs ih =>
    show ((transformChunk parse st c).2
        ++ (runTransform parse (transformChunk parse st c).1 cs).2) = c :: cs
    rw [ih]
    rfl

/- ### Relay coordinator machine (route.ts lines 160-300)

The async coordinator is embedded as a small-step transition system.  A
step executes one synchronous segment of JS code - the code between two
await points, which the single-threaded event loop runs atomically - and
the environment picks the next event: an enqueue from the transform, the
abort listener firing, the settlement of a fetch, a chunk or the end of a
synthesis body read, a process close or error event, or the resumption of a
task whose awaited promise is settled.  Writes on a stdin that has already
been ended are recorded as not delivered: Node discards data written after
end(), so such bytes never reach the player. -/

/-- Work item of the TTS queue (route.ts line 160). -/
inductive QItem where
  | speak (t : List Char)
  | endI
deriving DecidableEq, Repr

/-- Observable state of one spawned ffplay process: alive until its close
or error event fires, errored when the spawn failed, and the state of its
stdin stream. -/
structure Proc where
  alive : Bool
  errored : Bool
  stdinEnded : Bool
  stdinDestroyed : Bool
deriving DecidableEq, Repr

/-- Ghost record of one stdin.write call on the playback sink: the process
written to, the unit index (position of its text in the fetch order), a tag
distinguishing chunks, whether the bytes actually reach the player (false
iff stdin was already ended), and whether the write happened after the
abort fired. -/
structure WriteRec where
  pid : Nat
  unit : Nat
  tag : Nat
  delivered : Bool
  afterAbort : Bool
deriving DecidableEq, Repr

/-- Continuation of a worker task suspended at an await: right after the
awaited startFfplay, awaiting the synthesis fetch, awaiting response.text()
before throwing on a non-ok status, awaiting reader.read(), awaiting the
close promise in the end branch, or awaiting it in the catch block. -/
inductive WPC where
  | startAwait
  | fetchWait (unit : Nat) (t : List Char)
  | errTextWait (unit : Nat) (t : List Char)
  | readWait (unit : Nat) (t : List Char)
  | endWait (pid : Nat)
  | catchWait (pid : Nat)
deriving DecidableEq, Repr

/-- Complete state of the coordinator: the queue, the busy flag, the
current process handle and close promise (indices into procs), all spawned
processes, the continuations of all worker tasks ever started (finished
ones are none), a suspended stopTTS if any, and ghost logs: the texts
passed to the synthesis fetch in order, the stdin writes, the number of
spawn calls, whether abort has fired, and the texts enqueued as Speak items
in order. -/
structure Sys where
  ttsQueue : List QItem
  processingQueue : Bool
  ffplayProc : Option Nat
  ffplayClosePromise : Option Nat
  procs : List Proc
  workers : List (Option WPC)
  stopWait : Option Nat
  fetches : List (List Char)
  writes : List WriteRec
  spawns : Nat
  aborted : Bool
  enqLog : List (List Char)
deriving DecidableEq, Repr

/-- State at response start. -/
def Sys.init : Sys := ⟨[], false, none, none, [], [], none, [], [], 0, false, []⟩

/-- Continuation of worker wi, or none when it is finished or absent. -/
def getWorker (s : Sys) (wi : Nat) : Option WPC :=
  match s.workers[wi]? with
  | some (some pc) => some pc
  | _ => none

/-- Replacement of the continuation of worker wi. -/
def setWorker (s : Sys) (wi : Nat) (w : Option WPC) : Sys :=
  { s with workers := s.workers.set wi w }

/-- Effect on the process table of the guarded stdin.end() call
(route.ts lines 174-176, 271-273, 282-284): end the stdin of the current
process when a handle is set and the stream is not destroyed. -/
def stdinEndProcs (cur : Option Nat) (procs : List Proc) : List Proc :=
  match cur with
  | none => procs
  | some pid =>
    match procs[pid]? with
    | none => procs
    | some p =>
      if p.stdinDestroyed then procs
      else procs.set pid { p with stdinEnded := true }

/-- The guarded stdin.end() call on the current handle. -/
def stdinEnd (s : Sys) : Sys := { s with procs := stdinEndProcs s.ffplayProc s.procs }

/-- Records produced by the guarded stdin.write call (route.ts lines
254-256): nothing when no handle is set or the stream is destroyed,
otherwise one record, delivered iff stdin has not been ended. -/
def writeRecs (cur : Option Nat) (procs : List Proc) (aborted : Bool)
    (u tag : Nat) : List WriteRec :=
  match cur with
  | none => []
  | some pid =>
    match procs[pid]? with
    | none => []
    | some p =>
      if p.stdinDestroyed then []
      else [⟨pid, u, tag, !p.stdinEnded, aborted⟩]

/-- The guarded stdin.write call on the current handle. -/
def stdinWrite (s : Sys) (u tag : Nat) : Sys :=
  { s with writes := s.writes ++ writeRecs s.ffplayProc s.procs s.aborted u tag }

/-- A close promise is settled once its process is no longer alive. -/
def promiseSettled (s : Sys) (pid : Nat) : Bool :=
  match s.procs[pid]? with
  | some p => !p.alive
  | none => false

/-- A close promise is rejected when the error event fired. -/
def promiseRejected (s : Sys) (pid : Nat) : Bool :=
  match s.procs[pid]? with
  | some p => p.errored
  | none => false

/-- startFfplay (route.ts lines 196-219): return at once when a handle is
set, otherwise spawn a process and record the handle and close promise.
The body contains no await, so it runs inside the callers segment. -/
def startFfplay (s : Sys) : Sys :=
  match s.ffplayProc with
  | some _ => s
  | none =>
    { s with procs := s.procs ++ [⟨true, false, false, false⟩],
             ffplayProc := some s.procs.length,
             ffplayClosePromise := some s.procs.length,
             spawns := s.spawns + 1 }

/-- Exit of the processQueue function: the finally block resets the busy
flag and the worker task completes (route.ts lines 288-290). -/
def finishWorker (s : Sys) (wi : Nat) : Sys :=
  setWorker { s with processingQueue := false } wi none

/-- The catch block of processQueue (route.ts lines 279-287): end stdin if
possible, then either suspend on the close promise (its rejection is
swallowed by the attached catch) or clear the handles and exit through the
finally block. -/
def enterCatch (s : Sys) (wi : Nat) : Sys :=
  let s1 := stdinEnd s
  match s1.ffplayClosePromise with
  | some pid => setWorker s1 wi (some (WPC.catchWait pid))
  | none => finishWorker { s1 with ffplayProc := none, ffplayClosePromise := none } wi

/-- The while loop of processQueue (route.ts lines 266-278), run from the
loop head until the next await or until the function returns.  An empty
queue exits through the finally block.  A speak item starts the synthesis
fetch - the text is recorded in the fetch log and the worker suspends
awaiting the response.  An end item ends stdin, then either suspends on the
close promise or clears the handles and continues the loop synchronously.
The fuel exceeds the queue length, so it never runs out. -/
def processQueueRun (wi : Nat) : Sys → Nat → Sys
  | s, 0 => s
  | s, fuel + 1 =>
    match s.ttsQueue with
    | [] => finishWorker s wi
    | QItem.speak t :: rest =>
      setWorker { s with ttsQueue := rest, fetches := s.fetches ++ [t] }
        wi (some (WPC.fetchWait s.fetches.length t))
    | QItem.endI :: rest =>
      let s1 := stdinEnd { s with ttsQueue := rest }
      match s1.ffplayClosePromise with
      | some pid => setWorker s1 wi (some (WPC.endWait pid))
      | none =>
        processQueueRun wi { s1 with ffplayProc := none, ffplayClosePromise := none } fuel

/-- enqueueTTS and enqueueEnd (route.ts lines 293-300): push the item, then
call processQueue, whose synchronous head either returns at once when the
busy flag is set, or sets the flag, runs the startFfplay body, and suspends
at its first await as a new worker task. -/
def enqueueItem (s : Sys) (it : QItem) : Sys :=
  let log := match it with
    | QItem.speak t => s.enqLog ++ [t]
    | QItem.endI => s.enqLog
  let s1 := { s with ttsQueue := s.ttsQueue ++ [it], enqLog := log }
  if s1.processingQueue then s1
  else
    let s2 := startFfplay { s1 with processingQueue := true }
    { s2 with workers := s2.workers ++ [some WPC.startAwait] }

/-- Environment and scheduler events: an enqueue from the transform, the
abort listener, the resumption of a worker whose awaited promise is
settled, the settlement of a fetch with an ok or non-ok status, a chunk or
the end of the synthesis body stream, the close or error event of a spawned
process, and the resumption of a suspended stopTTS. -/
inductive Ev where
  | enqText (t : List Char)
  | enqEnd
  | abort
  | workerRun (wi : Nat)
  | fetchOk (wi : Nat)
  | fetchErr (wi : Nat)
  | readChunk (wi : Nat) (tag : Nat)
  | readDone (wi : Nat)
  | procClose (pid : Nat)
  | procError (pid : Nat)
  | stopResume
deriving DecidableEq, Repr

/-- One step of the coordinator.  The result is none when the event is not
enabled in the given state.  The abort case is stopTTS (route.ts lines
167-194): clear the queue, reset the busy flag, end stdin, then either
suspend awaiting the close promise or clear the handles in the finally
block.  The workerRun case resumes a suspended worker: after startFfplay it
enters the loop; after the response.text() of a failed fetch it throws into
the catch block; in the end branch a resolved close promise clears the
handles and re-enters the loop while a rejected one throws into the catch
block; in the catch block the settlement (rejections swallowed) clears the
handles and exits.  fetchOk moves the worker into the read loop, fetchErr
to the await of response.text().  readChunk performs the guarded
stdin.write and stays in the read loop; readDone re-enters the queue
loop. -/
def stepEv (s : Sys) : Ev → Option Sys
  | .enqText t => some (enqueueItem s (QItem.speak t))
  | .enqEnd => some (enqueueItem s QItem.endI)
  | .abort =>
    if s.aborted then none
    else
      let s1 := stdinEnd { s with aborted := true, ttsQueue := [], processingQueue := false }
      match s1.ffplayClosePromise with
      | some pid => some { s1 with stopWait := some pid }
      | none => some { s1 with ffplayProc := none, ffplayClosePromise := none }
  | .workerRun wi =>
    match getWorker s wi with
    | some WPC.startAwait => some (processQueueRun wi s (s.ttsQueue.length + 1))
    | some (WPC.errTextWait _ _) => some (enterCatch s wi)
    | some (WPC.endWait pid) =>
      if promiseSettled s pid then
        if promiseRejected s pid then some (enterCatch s wi)
        else some (processQueueRun wi
          { s with ffplayProc := none, ffplayClosePromise := none } (s.ttsQueue.length + 1))
      else none
    | some (WPC.catchWait pid) =>
      if promiseSettled s pid then
        some (finishWorker { s with ffplayProc := none, ffplayClosePromise := none } wi)
      else none
    | _ => none
  | .fetchOk wi =>
    match getWorker s wi with
    | some (WPC.fetchWait u t) => some (setWorker s wi (some (WPC.readWait u t)))
    | _ => none
  | .fetchErr wi =>
    match getWorker s wi with
    | some (WPC.fetchWait u t) => some (setWorker s wi (some (WPC.errTextWait u t)))
    | _ => none
  | .readChunk wi tag =>
    match getWorker s wi with
    | some (WPC.readWait u _) => some (stdinWrite s u tag)
    | _ => none
  | .readDone wi =>
    match getWorker s wi with
    | some (WPC.readWait _ _) => some (processQueueRun wi s (s.ttsQueue.length + 1))
    | _ => none
  | .procClose pid =>
    match s.procs[pid]? with
    | some p =>
      if p.alive then
        some { s with procs := s.procs.set pid ({ p with alive := false, stdinDestroyed := true }) }
      else none
    | none => none
  | .procError pid =>
    match s.procs[pid]? with
    | some p =>
      if p.alive then
        some
          { s with procs :=
              s.procs.set pid ({ p with alive := false, errored := true, stdinDestroyed := true }) }
      else none
    | none => none
  | .stopResume =>
    match s.stopWait with
    | some pid =>
      if promiseSettled s pid then
        some { s with stopWait := none, ffplayProc := none, ffplayClosePromise := none }
      else none
    | none => none

/-- Run of the coordinator over a list of events, none when some event is
not enabled. -/
def runEvs (s : Sys) : List Ev → Option Sys
  | [] => some s
  | e :: es =>
    match stepEv s e with
    | some s' => runEvs s' es
    | none => none

/- ### Concrete runs used by the coordinator claims -/

/-- Text of the first Speak item in the concrete runs. -/
def txtA : List Char := ("A.").data

/-- Text of the second Speak item in the concrete runs. -/
def txtB : List Char := ("B.").data

/-- Run for C2: two Speak items are enqueued, the worker dequeues the first
and its synthesis fetch settles with a non-ok status; the thrown error is
caught outside the loop, the process is torn down and the worker exits. -/
def traceC2 : List Ev :=
  [Ev.enqText txtA, Ev.enqText txtB, Ev.workerRun 0, Ev.fetchErr 0,
   Ev.workerRun 0, Ev.procClose 0, Ev.workerRun 0]

/-- Run for C3: the first Speak item is in its synthesis read loop when the
abort fires; stopTTS resets the busy flag, the process exits, the handles
are cleared, a second Speak item is enqueued and starts a second worker
with a fresh process; then a chunk of the second unit arrives before a
late chunk of the first. -/
def traceC3 : List Ev :=
  [Ev.enqText txtA, Ev.workerRun 0, Ev.fetchOk 0, Ev.abort, Ev.procClose 0,
   Ev.stopResume, Ev.enqText txtB, Ev.workerRun 1, Ev.fetchOk 1,
   Ev.readChunk 1 100, Ev.readChunk 0 200]

/-- Run for C5: like the C3 run up to the post-abort enqueue, after which a
late chunk of the aborted unit arrives and is written to the fresh
process. -/
def traceC5 : List Ev :=
  [Ev.enqText txtA, Ev.workerRun 0, Ev.fetchOk 0, Ev.abort, Ev.procClose 0,
   Ev.stopResume, Ev.enqText txtB, Ev.readChunk 0 5]

/-- Run for C6: the worker is suspended in its read loop when the abort
fires and resets the busy flag; a subsequent enqueue then observes the
clear flag and starts a second worker while the first is still live. -/
def traceC6 : List Ev :=
  [Ev.enqText txtA, Ev.workerRun 0, Ev.fetchOk 0, Ev.abort, Ev.enqText txtB]

/-- Run for C8, first phase: a Speak item and the End marker are enqueued,
the spawn of the player fails (error event, rejected close promise), the
worker synthesizes the item with all writes skipped, and processing the End
marker observes the rejection, tears down and exits with cleared
handles. -/
def traceC8start : List Ev :=
  [Ev.enqText txtA, Ev.enqEnd, Ev.procError 0, Ev.workerRun 0, Ev.fetchOk 0,
   Ev.readDone 0, Ev.workerRun 0, Ev.workerRun 0]

/-- Run for C8: after the failed first phase a further Speak item is
enqueued. -/
def traceC8 : List Ev := traceC8start ++ [Ev.enqText txtB]

/- ### Counterexample theorems on the coordinator -/

/-- C2 counterexample: in the C2 run, item B is enqueued before item A
fails, yet after the failure the synthesis log contains only A, item B is
still sitting in the queue, the busy flag is clear and no worker task is
live - the failure aborted the whole drain loop instead of continuing with
the next item, because the catch of processQueue sits outside the while
loop. -/
theorem c2_counterexample :
    (runEvs Sys.init traceC2).map
        (fun s => (s.fetches, s.ttsQueue, s.processingQueue, s.workers))
      = some ([txtA], [QItem.speak txtB], false, [none]) := by decide

/-- C3 counterexample: in the C3 run a delivered write of unit 1 occurs
before a delivered write of unit 0, so the sink write order does not follow
the text-unit sequence order; the interleaving uses only enqueue, drain and
cancellation steps of the code. -/
theorem c3_counterexample :
    ((runEvs Sys.init traceC3).map (fun s => s.writes.map (fun w => (w.unit, w.delivered)))
      = some [(1, true), (0, true)])
    ∧ ¬ List.Pairwise (· ≤ ·) [1, 0] := by decide

/-- C5 counterexample: in the C5 run the cancellation fires after the Speak
item is enqueued and before its synthesis completes, yet afterwards a chunk
still arriving from the in-flight synthesis read loop is written to and
delivered at the playback sink (the fresh process spawned by the post-abort
enqueue), so the number of post-cancellation sink writes is not zero. -/
theorem c5_counterexample :
    (runEvs Sys.init traceC5).map (fun s => s.writes)
      = some [⟨1, 0, 5, true, true⟩] := by decide

/-- C6 counterexample: in the C6 run, after an enqueue, a drain suspension
and the cancellation, a further enqueue leaves two worker tasks live at
once - worker 0 still inside its drain loop and worker 1 freshly started -
because stopTTS cleared the busy flag while worker 0 was suspended. -/
theorem c6_counterexample :
    (runEvs Sys.init traceC6).map
        (fun s => ((getWorker s 0).isSome, (getWorker s 1).isSome, s.processingQueue))
      = some (true, true, true) := by decide

/-- C8 counterexample: in the C8 run the player spawn fails (process 0 ends
errored), yet after the failure is observed and a further item is enqueued
the spawn count is 2, not 1: the coordinator attempts playback again for
the same response, re-spawning the player, contrary to the claim that no
further playback attempts are made. -/
theorem c8_counterexample :
    ((runEvs Sys.init traceC8).map
        (fun s => (s.spawns, (s.procs[0]?).map Proc.errored))
      = some (2, some true))
    ∧ ¬ ((runEvs Sys.init traceC8).map (fun s => s.spawns) = some 1) := by decide

/-- C8 amended: the spawn failure surfaces when the rejected close promise
is awaited while processing the End marker; the worker tears down, clears
the handles and exits, and the text path is untouched; but the failure is
not latched, so the next enqueued item starts a new worker and spawns a
fresh player process for the same response. -/
theorem c8_amended_respawn :
    ((runEvs Sys.init traceC8start).map
        (fun s => (s.spawns, s.ffplayProc, s.processingQueue, s.workers))
      = some (1, none, false, [none]))
    ∧ (((runEvs Sys.init traceC8start).bind
        (fun s => stepEv s (Ev.enqText txtB))).map
        (fun s => (s.spawns, s.ffplayProc)) = some (2, some 1)) := by decide

/- ### C9: idempotence of graceful end and hard stop -/

/-- C9: starting from a state with no playback session, the hard stop
(stopTTS, run by the abort listener) leaves every program-visible component
of the state unchanged - it performs no stdin call, clears an already empty
queue and an already clear flag, and takes the no-promise branch of its
finally block - and processing an End item when no process and no close
promise exist merely consumes the item: the loop continues on the rest of
the queue with the sink state untouched, ending stdin on nothing and
skipping the close-promise await, so neither path can raise.  In
particular, ending gracefully a second time (the first End processing
cleared the handles) and hard-stopping with no session are no-ops. -/
theorem c9_idempotent :
    (∀ s : Sys, s.ffplayProc = none → s.ffplayClosePromise = none →
      s.ttsQueue = [] → s.processingQueue = false → s.aborted = false →
      stepEv s Ev.abort = some ({ s with aborted := true }))
    ∧ (∀ (s : Sys) (wi : Nat) (q : List QItem) (fuel : Nat),
      s.ffplayProc = none → s.ffplayClosePromise = none →
      s.ttsQueue = QItem.endI :: q →
      processQueueRun wi s (fuel + 1)
        = processQueueRun wi ({ s with ttsQueue := q }) fuel) := by
  constructor
  · intro s h1 h2 h3 h4 h5
    cases s
    simp_all [stepEv, stdinEnd, stdinEndProcs]
  · intro s wi q fuel h1 h2 h3
    cases s
    simp_all [processQueueRun, stdinEnd, stdinEndProcs]

/-- Witness for C9 at a concrete state: the initial state has no session,
and the state with one End item queued has no session either. -/
theorem c9_idempotent_witness :
    stepEv Sys.init Ev.abort = some ({ Sys.init with aborted := true })
    ∧ processQueueRun 0 ({ Sys.init with ttsQueue := [QItem.endI] }) 2
      = processQueueRun 0 Sys.init 1 :=
  ⟨c9_idempotent.1 Sys.init rfl rfl rfl rfl rfl,
   c9_idempotent.2 ({ Sys.init with ttsQueue := [QItem.endI] }) 0 [] 1 rfl rfl rfl⟩

/- ### Helper lemmas on list indexing -/

theorem lget_concat {α : Type} (l : List α) (x : α) (j : Nat) :
    (l ++ [x])[j]? = if j = l.length then some x else l[j]? := by
  induction l generalizing j with
  | nil =>
    cases j with
    | zero => simp
    | succ j => simp
  | cons a l ih =>
    cases j with
    | zero => simp
    | succ j => simpa using ih j

theorem lget_set_self {α : Type} (l : List α) (i : Nat) (a : α) (h : i < l.length) :
    (l.set i a)[i]? = some a := by
  induction l generalizing i with
  | nil => simp at h
  | cons b l ih =>
    cases i with
    | zero => simp
    | succ i => simpa [List.set] using ih i (by simpa using h)

theorem lget_set_other {α : Type} (l : List α) (i j : Nat) (a : α) (h : i ≠ j) :
    (l.set i a)[j]? = l[j]? := by
  induction l generalizing i j with
  | nil => simp
  | cons b l ih =>
    cases i with
    | zero =>
      cases j with
      | zero => exact absurd rfl h
      | succ j => simp [List.set]
    | succ i =>
      cases j with
      | zero => simp [List.set]
      | succ j => simpa [List.set] using ih i j (fun hh => h (by rw [hh]))

theorem lget_some_lt {α : Type} (l : List α) (i : Nat) (x : α)
    (h : l[i]? = some x) : i < l.length := by
  induction l generalizing i with
  | nil => simp at h
  | cons b l ih =>
    cases i with
    | zero => simp
    | succ i => simpa using ih i (by simpa using h)

/- ### Basic facts about the coordinator machine -/

/-- Texts of the Speak items of a queue, in order. -/
def speakTexts : List QItem → List (List Char)
  | [] => []
  | QItem.speak t :: r => t :: speakTexts r
  | QItem.endI :: r => speakTexts r

/-- Test for the abort event. -/
def isAbortEv : Ev → Bool
  | .abort => true
  | _ => false

/-- Test for the enqueue events. -/
def isEnqEv : Ev → Bool
  | .enqText _ => true
  | .enqEnd => true
  | _ => false

/-- Unit index carried by a worker continuation that is inside the handling
of one Speak item. -/
def fetchUnit : WPC → Option Nat
  | .fetchWait u _ => some u
  | .errTextWait u _ => some u
  | .readWait u _ => some u
  | _ => none

theorem speakTexts_append (q1 q2 : List QItem) :
    speakTexts (q1 ++ q2) = speakTexts q1 ++ speakTexts q2 := by
  induction q1 with
  | nil => rfl
  | cons it r ih => cases it <;> simp [speakTexts, ih]

theorem getWorker_eq_some (s : Sys) (wi : Nat) (pc : WPC)
    (h : getWorker s wi = some pc) : s.workers[wi]? = some (some pc) := by
  unfold getWorker at h
  cases hg : s.workers[wi]? with
  | none => rw [hg] at h; simp at h
  | some o =>
    cases o with
    | none => rw [hg] at h; simp at h
    | some pc' => rw [hg] at h; simp at h; rw [h]

theorem getWorker_lt (s : Sys) (wi : Nat) (pc : WPC)
    (h : getWorker s wi = some pc) : wi < s.workers.length :=
  lget_some_lt _ _ _ (getWorker_eq_some s wi pc h)

theorem getWorker_setWorker_self (s : Sys) (wi : Nat) (w : Option WPC)
    (h : wi < s.workers.length) : getWorker (setWorker s wi w) wi = w := by
  cases w <;> simp [getWorker, setWorker, lget_set_self _ _ _ h]

theorem getWorker_setWorker_other (s : Sys) (wi wj : Nat) (w : Option WPC)
    (h : wi ≠ wj) : getWorker (setWorker s wi w) wj = getWorker s wj := by
  simp [getWorker, setWorker, lget_set_other _ _ _ _ h]

theorem writeRecs_unit (cur : Option Nat) (procs : List Proc) (ab : Bool)
    (u tag : Nat) : ∀ w ∈ writeRecs cur procs ab u tag, w.unit = u := by
  intro w hw
  unfold writeRecs at hw
  split at hw
  · simp at hw
  · split at hw
    · simp at hw
    · split at hw
      · simp at hw
      · simp at hw
        rw [hw]

/- ### The single-worker and write-order invariant

In runs without a cancellation step the busy flag is only cleared by the
worker itself when it exits, so at most one worker task is ever live, the
unit a live worker is synthesizing is always the most recently fetched one,
and the sink writes are ordered by unit.  The invariant is stated over the
machine state and shown to be preserved by every step other than abort. -/

structure SysInv (s : Sys) : Prop where
  idle_none : s.processingQueue = false → ∀ wi, getWorker s wi = none
  busy_one : s.processingQueue = true →
    ∃ wa, (getWorker s wa).isSome ∧ ∀ wj, wj ≠ wa → getWorker s wj = none
  unit_last : ∀ wi pc u, getWorker s wi = some pc → fetchUnit pc = some u →
    u + 1 = s.fetches.length
  writes_lt : ∀ w ∈ s.writes, w.unit < s.fetches.length
  writes_sorted : List.Pairwise (fun a b => a ≤ b) (s.writes.map (fun w => w.unit))
  queue_log : s.fetches ++ speakTexts s.ttsQueue = s.enqLog

theorem inv_init : SysInv Sys.init := by
  constructor
  · intro _ wi; rfl
  · intro h; exact absurd h (by decide)
  · intro wi pc u h; exact absurd h (by simp [getWorker, Sys.init])
  · intro w hw; exact absurd hw (by simp [Sys.init])
  · exact List.Pairwise.nil
  · rfl

theorem getWorker_congr (s s' : Sys) (h : s'.workers = s.workers) (wi : Nat) :
    getWorker s' wi = getWorker s wi := by
  simp [getWorker, h]

/-- Transfer of the invariant along a state change that leaves the worker
list, the busy flag, the fetch log, the write log, the Speak texts of the
queue and the enqueue log unchanged. -/
theorem inv_of_fields_eq (s s' : Sys)
    (hw : s'.workers = s.workers) (hb : s'.processingQueue = s.processingQueue)
    (hf : s'.fetches = s.fetches) (hwr : s'.writes = s.writes)
    (hq : speakTexts s'.ttsQueue = speakTexts s.ttsQueue)
    (hel : s'.enqLog = s.enqLog)
    (hInv : SysInv s) : SysInv s' := by
  constructor
  · intro h wi
    rw [getWorker_congr s s' hw]
    exact hInv.idle_none (by rw [← hb]; exact h) wi
  · intro h
    obtain ⟨wa, h1, h2⟩ := hInv.busy_one (by rw [← hb]; exact h)
    refine ⟨wa, ?_, ?_⟩
    · rw [getWorker_congr s s' hw]; exact h1
    · intro wj hj; rw [getWorker_congr s s' hw]; exact h2 wj hj
  · intro wi pc u hg hu
    rw [hf]
    exact hInv.unit_last wi pc u (by rw [← getWorker_congr s s' hw]; exact hg) hu
  · intro w hwmem
    rw [hf]
    exact hInv.writes_lt w (by rw [← hwr]; exact hwmem)
  · rw [hwr]; exact hInv.writes_sorted
  · rw [hf, hq, hel]; exact hInv.queue_log

theorem inv_finishWorker (s : Sys) (wi : Nat)
    (hW : wi < s.workers.length)
    (hO : ∀ wj, wj ≠ wi → getWorker s wj = none)
    (hLt : ∀ w ∈ s.writes, w.unit < s.fetches.length)
    (hSort : List.Pairwise (fun a b => a ≤ b) (s.writes.map (fun w => w.unit)))
    (hQL : s.fetches ++ speakTexts s.ttsQueue = s.enqLog) :
    SysInv (finishWorker s wi) := by
  have hW' : wi < ({ s with processingQueue := false } : Sys).workers.length := hW
  unfold finishWorker
  constructor
  · intro _ wj
    by_cases hji : wj = wi
    · subst hji
      rw [getWorker_setWorker_self _ _ _ hW']
    · rw [getWorker_setWorker_other _ _ _ _ (fun hh => hji hh.symm)]
      exact hO wj hji
  · intro h
    have hx : false = true := h
    exact Bool.noConfusion hx
  · intro wj pc u hg hu
    by_cases hji : wj = wi
    · subst hji
      rw [getWorker_setWorker_self _ _ _ hW'] at hg
      exact Option.noConfusion hg
    · rw [getWorker_setWorker_other _ _ _ _ (fun hh => hji hh.symm)] at hg
      have hx : getWorker s wj = some pc := hg
      rw [hO wj hji] at hx
      exact Option.noConfusion hx
  · exact hLt
  · exact hSort
  · exact hQL

theorem inv_speak (s : Sys) (wi : Nat) (t : List Char) (rest : List QItem)
    (hq : s.ttsQueue = QItem.speak t :: rest)
    (hb : s.processingQueue = true)
    (hW : wi < s.workers.length)
    (hO : ∀ wj, wj ≠ wi → getWorker s wj = none)
    (hLt : ∀ w ∈ s.writes, w.unit < s.fetches.length)
    (hSort : List.Pairwise (fun a b => a ≤ b) (s.writes.map (fun w => w.unit)))
    (hQL : s.fetches ++ speakTexts s.ttsQueue = s.enqLog) :
    SysInv (setWorker ({ s with ttsQueue := rest, fetches := s.fetches ++ [t] })
      wi (some (WPC.fetchWait s.fetches.length t))) := by
  have hW' : wi < ({ s with ttsQueue := rest, fetches := s.fetches ++ [t] } : Sys).workers.length := hW
  constructor
  · intro hfalse
    have hx : s.processingQueue = false := hfalse
    rw [hb] at hx
    exact Bool.noConfusion hx
  · intro _
    refine ⟨wi, ?_, ?_⟩
    · rw [getWorker_setWorker_self _ _ _ hW']
      rfl
    · intro wj hj
      rw [getWorker_setWorker_other _ _ _ _ (fun hh => hj hh.symm)]
      exact hO wj hj
  · intro wj pc u hg hu
    by_cases hji : wj = wi
    · subst hji
      rw [getWorker_setWorker_self _ _ _ hW'] at hg
      have hpc : WPC.fetchWait s.fetches.length t = pc := Option.some.inj hg
      show u + 1 = (s.fetches ++ [t]).length
      rw [← hpc] at hu
      have hun : s.fetches.length = u := by
        simpa [fetchUnit] using hu
      rw [← hun]
      simp
    · rw [getWorker_setWorker_other _ _ _ _ (fun hh => hji hh.symm)] at hg
      have hx : getWorker s wj = some pc := hg
      rw [hO wj hji] at hx
      exact Option.noConfusion hx
  · intro w hw
    have h1 := hLt w hw
    show w.unit < (s.fetches ++ [t]).length
    simp only [List.length_append, List.length_cons, List.length_nil]
    omega
  · exact hSort
  · show (s.fetches ++ [t]) ++ speakTexts rest = s.enqLog
    rw [List.append_assoc]
    rw [hq] at hQL
    simpa [speakTexts] using hQL

theorem inv_suspend (s : Sys) (wi : Nat) (pc : WPC)
    (hfu : fetchUnit pc = none)
    (hb : s.processingQueue = true)
    (hW : wi < s.workers.length)
    (hO : ∀ wj, wj ≠ wi → getWorker s wj = none)
    (hLt : ∀ w ∈ s.writes, w.unit < s.fetches.length)
    (hSort : List.Pairwise (fun a b => a ≤ b) (s.writes.map (fun w => w.unit)))
    (hQL : s.fetches ++ speakTexts s.ttsQueue = s.enqLog) :
    SysInv (setWorker s wi (some pc)) := by
  constructor
  · intro hfalse
    have hx : s.processingQueue = false := hfalse
    rw [hb] at hx
    exact Bool.noConfusion hx
  · intro _
    refine ⟨wi, ?_, ?_⟩
    · rw [getWorker_setWorker_self _ _ _ hW]
      rfl
    · intro wj hj
      rw [getWorker_setWorker_other _ _ _ _ (fun hh => hj hh.symm)]
      exact hO wj hj
  · intro wj pc' u hg hu
    by_cases hji : wj = wi
    · subst hji
      rw [getWorker_setWorker_self _ _ _ hW] at hg
      have hpc : pc = pc' := Option.some.inj hg
      rw [← hpc] at hu
      rw [hfu] at hu
      exact Option.noConfusion hu
    · rw [getWorker_setWorker_other _ _ _ _ (fun hh => hji hh.symm)] at hg
      rw [hO wj hji] at hg
      exact Option.noConfusion hg
  · exact hLt
  · exact hSort
  · exact hQL

theorem inv_swapWorker (s : Sys) (wi : Nat) (pcNew : WPC)
    (hInv : SysInv s)
    (hg : (getWorker s wi).isSome = true)
    (hu : ∀ u, fetchUnit pcNew = some u → u + 1 = s.fetches.length) :
    SysInv (setWorker s wi (some pcNew)) := by
  have hb : s.processingQueue = true := by
    by_cases h : s.processingQueue
    · exact h
    · have := hInv.idle_none (by simpa using h) wi
      rw [this] at hg
      exact Bool.noConfusion hg
  have hW : wi < s.workers.length := by
    cases hgw : getWorker s wi with
    | none => rw [hgw] at hg; exact Bool.noConfusion hg
    | some pc => exact getWorker_lt s wi pc hgw
  have hO : ∀ wj, wj ≠ wi → getWorker s wj = none := by
    obtain ⟨wa, h1, h2⟩ := hInv.busy_one hb
    have hwa : wi = wa := by
      by_cases hx : wi = wa
      · exact hx
      · rw [h2 wi hx] at hg; exact Bool.noConfusion hg
    subst hwa
    exact h2
  constructor
  · intro hfalse
    have hx : s.processingQueue = false := hfalse
    rw [hb] at hx
    exact Bool.noConfusion hx
  · intro _
    refine ⟨wi, ?_, ?_⟩
    · rw [getWorker_setWorker_self _ _ _ hW]
      rfl
    · intro wj hj
      rw [getWorker_setWorker_other _ _ _ _ (fun hh => hj hh.symm)]
      exact hO wj hj
  · intro wj pc' u hgw hu'
    by_cases hji : wj = wi
    · subst hji
      rw [getWorker_setWorker_self _ _ _ hW] at hgw
      have hpc : pcNew = pc' := Option.some.inj hgw
      rw [← hpc] at hu'
      exact hu u hu'
    · rw [getWorker_setWorker_other _ _ _ _ (fun hh => hji hh.symm)] at hgw
      rw [hO wj hji] at hgw
      exact Option.noConfusion hgw
  · exact hInv.writes_lt
  · exact hInv.writes_sorted
  · exact hInv.queue_log

/- ### Reduction equations for the worker loop -/

theorem processQueueRun_nil (wi : Nat) (s : Sys) (fuel : Nat) (h : s.ttsQueue = []) :
    processQueueRun wi s (fuel + 1) = finishWorker s wi := by
  unfold processQueueRun
  rw [h]

theorem processQueueRun_speak (wi : Nat) (s : Sys) (fuel : Nat) (t : List Char)
    (rest : List QItem) (h : s.ttsQueue = QItem.speak t :: rest) :
    processQueueRun wi s (fuel + 1)
      = setWorker ({ s with ttsQueue := rest, fetches := s.fetches ++ [t] })
          wi (some (WPC.fetchWait s.fetches.length t)) := by
  unfold processQueueRun
  rw [h]

theorem processQueueRun_endI_some (wi : Nat) (s : Sys) (fuel : Nat)
    (rest : List QItem) (pid : Nat)
    (h : s.ttsQueue = QItem.endI :: rest) (hc : s.ffplayClosePromise = some pid) :
    processQueueRun wi s (fuel + 1)
      = setWorker (stdinEnd ({ s with ttsQueue := rest })) wi (some (WPC.endWait pid)) := by
  unfold processQueueRun
  rw [h]
  dsimp only
  have hc1 : (stdinEnd ({ s with ttsQueue := rest })).ffplayClosePromise = some pid := hc
  rw [hc1]

theorem processQueueRun_endI_none (wi : Nat) (s : Sys) (fuel : Nat)
    (rest : List QItem)
    (h : s.ttsQueue = QItem.endI :: rest) (hc : s.ffplayClosePromise = none) :
    processQueueRun wi s (fuel + 1)
      = processQueueRun wi
          ({ stdinEnd ({ s with ttsQueue := rest }) with
             ffplayProc := none, ffplayClosePromise := none }) fuel := by
  conv_lhs => unfold processQueueRun
  rw [h]
  dsimp only
  have hc1 : (stdinEnd ({ s with ttsQueue := rest })).ffplayClosePromise = none := hc
  rw [hc1]

/-- In a state whose only live worker is wi and whose logs satisfy the
invariant, running the worker loop preserves the invariant: the loop
dequeues items one at a time and every fetch it starts is of the most
recently dequeued text. -/
theorem processQueueRun_inv (wi : Nat) :
    ∀ (fuel : Nat) (s : Sys),
    s.ttsQueue.length < fuel →
    s.processingQueue = true →
    wi < s.workers.length →
    (∀ wj, wj ≠ wi → getWorker s wj = none) →
    (∀ w ∈ s.writes, w.unit < s.fetches.length) →
    List.Pairwise (fun a b => a ≤ b) (s.writes.map (fun w => w.unit)) →
    s.fetches ++ speakTexts s.ttsQueue = s.enqLog →
    SysInv (processQueueRun wi s fuel) := by
  intro fuel
  induction fuel with
  | zero =>
    intro s hf _ _ _ _ _ _
    exact absurd hf (Nat.not_lt_zero _)
  | succ fuel ih =>
    intro s hf hb hW hO hLt hSort hQL
    cases hq : s.ttsQueue with
    | nil =>
      rw [processQueueRun_nil wi s fuel hq]
      exact inv_finishWorker s wi hW hO hLt hSort hQL
    | cons it rest =>
      cases it with
      | speak t =>
        rw [processQueueRun_speak wi s fuel t rest hq]
        exact inv_speak s wi t rest hq hb hW hO hLt hSort hQL
      | endI =>
        cases hc : s.ffplayClosePromise with
        | some pid =>
          rw [processQueueRun_endI_some wi s fuel rest pid hq hc]
          refine inv_suspend (stdinEnd ({ s with ttsQueue := rest })) wi
            (WPC.endWait pid) rfl hb hW ?_ hLt hSort ?_
          · intro wj hj
            exact hO wj hj
          · show s.fetches ++ speakTexts rest = s.enqLog
            rw [hq] at hQL
            simpa [speakTexts] using hQL
        | none =>
          rw [processQueueRun_endI_none wi s fuel rest hq hc]
          apply ih
          · show rest.length < fuel
            rw [hq] at hf
            simp only [List.length_cons] at hf
            omega
          · exact hb
          · exact hW
          · intro wj hj
            exact hO wj hj
          · exact hLt
          · exact hSort
          · show s.fetches ++ speakTexts rest = s.enqLog
            rw [hq] at hQL
            simpa [speakTexts] using hQL

/- ### Per-event preservation helpers -/

theorem active_worker_facts (s : Sys) (wi : Nat) (pc : WPC)
    (hInv : SysInv s) (hg : getWorker s wi = some pc) :
    s.processingQueue = true ∧ wi < s.workers.length ∧
    ∀ wj, wj ≠ wi → getWorker s wj = none := by
  have hb : s.processingQueue = true := by
    by_cases h : s.processingQueue
    · exact h
    · have := hInv.idle_none (by simpa using h) wi
      rw [this] at hg
      exact Option.noConfusion hg
  refine ⟨hb, getWorker_lt s wi pc hg, ?_⟩
  obtain ⟨wa, h1, h2⟩ := hInv.busy_one hb
  have hwa : wi = wa := by
    by_cases hx : wi = wa
    · exact hx
    · rw [h2 wi hx] at hg; exact Option.noConfusion hg
  subst hwa
  exact h2

theorem inv_enterCatch (s : Sys) (wi : Nat) (pc : WPC)
    (hInv : SysInv s) (hg : getWorker s wi = some pc) :
    SysInv (enterCatch s wi) := by
  obtain ⟨hb, hW, hO⟩ := active_worker_facts s wi pc hInv hg
  unfold enterCatch
  dsimp only
  cases hc : (stdinEnd s).ffplayClosePromise with
  | some pid =>
    exact inv_suspend (stdinEnd s) wi (WPC.catchWait pid) rfl hb hW
      (fun wj hj => hO wj hj) hInv.writes_lt hInv.writes_sorted hInv.queue_log
  | none =>
    exact inv_finishWorker
      ({ stdinEnd s with ffplayProc := none, ffplayClosePromise := none }) wi hW
      (fun wj hj => hO wj hj) hInv.writes_lt hInv.writes_sorted hInv.queue_log

theorem writeRecs_cases (cur : Option Nat) (procs : List Proc) (ab : Bool)
    (u tag : Nat) :
    writeRecs cur procs ab u tag = []
    ∨ ∃ r, writeRecs cur procs ab u tag = [r] := by
  unfold writeRecs
  split
  · exact Or.inl rfl
  · split
    · exact Or.inl rfl
    · split
      · exact Or.inl rfl
      · exact Or.inr ⟨_, rfl⟩

theorem inv_stdinWrite (s : Sys) (wi : Nat) (u tag : Nat) (t : List Char)
    (hInv : SysInv s) (hg : getWorker s wi = some (WPC.readWait u t)) :
    SysInv (stdinWrite s u tag) := by
  have hu : u + 1 = s.fetches.length := hInv.unit_last wi _ u hg rfl
  constructor
  · intro hx wj
    exact hInv.idle_none hx wj
  · intro hx
    obtain ⟨wa, h1, h2⟩ := hInv.busy_one hx
    exact ⟨wa, h1, h2⟩
  · intro wj pc u' hg' hu'
    exact hInv.unit_last wj pc u' hg' hu'
  · intro w hw
    have hw' : w ∈ s.writes ++ writeRecs s.ffplayProc s.procs s.aborted u tag := hw
    rw [List.mem_append] at hw'
    show w.unit < s.fetches.length
    cases hw' with
    | inl h1 => exact hInv.writes_lt w h1
    | inr h2 =>
      have := writeRecs_unit s.ffplayProc s.procs s.aborted u tag w h2
      rw [this]
      omega
  · show List.Pairwise (fun a b => a ≤ b)
      ((s.writes ++ writeRecs s.ffplayProc s.procs s.aborted u tag).map (fun w => w.unit))
    rw [List.map_append, List.pairwise_append]
    refine ⟨hInv.writes_sorted, ?_, ?_⟩
    · cases writeRecs_cases s.ffplayProc s.procs s.aborted u tag with
      | inl h0 => rw [h0]; exact List.Pairwise.nil
      | inr h1 =>
        obtain ⟨r, hr⟩ := h1
        rw [hr]
        exact List.pairwise_singleton _ _
    · intro a ha b hb
      rw [List.mem_map] at ha hb
      obtain ⟨wa, hwa, rfl⟩ := ha
      obtain ⟨wb, hwb, rfl⟩ := hb
      have h1 := hInv.writes_lt wa hwa
      have h2 := writeRecs_unit s.ffplayProc s.procs s.aborted u tag wb hwb
      rw [h2]
      omega
  · exact hInv.queue_log

/-- Invariant preservation for the synchronous head of processQueue run by
an enqueue: when the busy flag is set the call returns at once; otherwise
the flag is set, startFfplay runs and a fresh worker is appended,
suspended at its first await. -/
theorem inv_enqueue_aux (s s1 : Sys)
    (hInv : SysInv s)
    (hw : s1.workers = s.workers) (hb1 : s1.processingQueue = s.processingQueue)
    (hf : s1.fetches = s.fetches) (hwr : s1.writes = s.writes)
    (hql : s1.fetches ++ speakTexts s1.ttsQueue = s1.enqLog) :
    SysInv (if s1.processingQueue then s1
      else
        { startFfplay ({ s1 with processingQueue := true }) with
          workers :=
            (startFfplay ({ s1 with processingQueue := true })).workers
              ++ [some WPC.startAwait] }) := by
  by_cases hb : s1.processingQueue
  · rw [if_pos hb]
    constructor
    · intro hx wi
      rw [getWorker_congr s s1 hw]
      exact hInv.idle_none (by rw [← hb1]; exact hx) wi
    · intro hx
      obtain ⟨wa, h1, h2⟩ := hInv.busy_one (by rw [← hb1]; exact hx)
      exact ⟨wa, by rw [getWorker_congr s s1 hw]; exact h1,
        fun wj hj => by rw [getWorker_congr s s1 hw]; exact h2 wj hj⟩
    · intro wi pc u hg hu
      rw [hf]
      exact hInv.unit_last wi pc u (by rw [← getWorker_congr s s1 hw]; exact hg) hu
    · intro w hwmem
      rw [hf]
      exact hInv.writes_lt w (by rw [← hwr]; exact hwmem)
    · rw [hwr]; exact hInv.writes_sorted
    · exact hql
  · rw [if_neg hb]
    have hb0 : s.processingQueue = false := by
      rw [← hb1]
      simpa using hb
    have hall : ∀ wi, getWorker s wi = none := hInv.idle_none hb0
    have hwS2 : (startFfplay ({ s1 with processingQueue := true })).workers = s.workers := by
      rw [← hw]
      unfold startFfplay
      split <;> rfl
    have hgR : ∀ wj,
        getWorker ({ startFfplay ({ s1 with processingQueue := true }) with
          workers := (startFfplay ({ s1 with processingQueue := true })).workers
            ++ [some WPC.startAwait] }) wj
        = (if wj = s.workers.length then some WPC.startAwait
           else getWorker s wj) := by
      intro wj
      show (match ((startFfplay ({ s1 with processingQueue := true })).workers
          ++ [some WPC.startAwait])[wj]? with
        | some (some pc) => some pc
        | _ => none) = _
      rw [hwS2, lget_concat]
      by_cases hj : wj = s.workers.length
      · rw [if_pos hj, if_pos hj]
      · rw [if_neg hj, if_neg hj]
        rfl
    have hfR : (startFfplay ({ s1 with processingQueue := true })).fetches = s.fetches := by
      rw [← hf]
      unfold startFfplay
      split <;> rfl
    have hwrR : (startFfplay ({ s1 with processingQueue := true })).writes = s1.writes := by
      unfold startFfplay
      split <;> rfl
    have hqR : (startFfplay ({ s1 with processingQueue := true })).ttsQueue = s1.ttsQueue := by
      unfold startFfplay
      split <;> rfl
    have helR : (startFfplay ({ s1 with processingQueue := true })).enqLog = s1.enqLog := by
      unfold startFfplay
      split <;> rfl
    have hbR : (startFfplay ({ s1 with processingQueue := true })).processingQueue = true := by
      unfold startFfplay
      split <;> rfl
    constructor
    · intro hx _
      have hx' : (startFfplay ({ s1 with processingQueue := true })).processingQueue = false := hx
      rw [hbR] at hx'
      exact Bool.noConfusion hx'
    · intro _
      refine ⟨s.workers.length, ?_, ?_⟩
      · rw [hgR, if_pos rfl]
        rfl
      · intro wj hj
        rw [hgR, if_neg hj]
        exact hall wj
    · intro wj pc u hg hu
      rw [hgR] at hg
      by_cases hj : wj = s.workers.length
      · rw [if_pos hj] at hg
        have hpc : WPC.startAwait = pc := Option.some.inj hg
        rw [← hpc] at hu
        exact Option.noConfusion hu
      · rw [if_neg hj] at hg
        rw [hall wj] at hg
        exact Option.noConfusion hg
    · intro w hwmem
      have hwmem' : w ∈ s1.writes := by rw [← hwrR]; exact hwmem
      show w.unit < (startFfplay ({ s1 with processingQueue := true })).fetches.length
      rw [hfR]
      exact hInv.writes_lt w (by rw [← hwr]; exact hwmem')
    · show List.Pairwise (fun a b => a ≤ b)
        ((startFfplay ({ s1 with processingQueue := true })).writes.map (fun w => w.unit))
      rw [hwrR, hwr]
      exact hInv.writes_sorted
    · show (startFfplay ({ s1 with processingQueue := true })).fetches
        ++ speakTexts (startFfplay ({ s1 with processingQueue := true })).ttsQueue
        = (startFfplay ({ s1 with processingQueue := true })).enqLog
      rw [hfR, hqR, helR, ← hf]
      exact hql

theorem inv_enqueueItem (s : Sys) (it : QItem) (hInv : SysInv s) :
    SysInv (enqueueItem s it) := by
  cases it with
  | speak t =>
    refine inv_enqueue_aux s
      ({ s with ttsQueue := s.ttsQueue ++ [QItem.speak t], enqLog := s.enqLog ++ [t] })
      hInv rfl rfl rfl rfl ?_
    show s.fetches ++ speakTexts (s.ttsQueue ++ [QItem.speak t]) = s.enqLog ++ [t]
    rw [speakTexts_append, ← List.append_assoc, hInv.queue_log]
    rfl
  | endI =>
    refine inv_enqueue_aux s
      ({ s with ttsQueue := s.ttsQueue ++ [QItem.endI] })
      hInv rfl rfl rfl rfl ?_
    show s.fetches ++ speakTexts (s.ttsQueue ++ [QItem.endI]) = s.enqLog
    rw [speakTexts_append, ← List.append_assoc, hInv.queue_log]
    simp [speakTexts]

/-- Preservation of the invariant by every step other than abort. -/
theorem inv_step (s s' : Sys) (e : Ev) (hA : isAbortEv e = false)
    (hInv : SysInv s) (h : stepEv s e = some s') : SysInv s' := by
  cases e with
  | enqText t =>
    have hs : enqueueItem s (QItem.speak t) = s' := Option.some.inj h
    rw [← hs]
    exact inv_enqueueItem s (QItem.speak t) hInv
  | enqEnd =>
    have hs : enqueueItem s QItem.endI = s' := Option.some.inj h
    rw [← hs]
    exact inv_enqueueItem s QItem.endI hInv
  | abort => exact Bool.noConfusion hA
  | workerRun wi =>
    simp only [stepEv] at h
    cases hg : getWorker s wi with
    | none => rw [hg] at h; simp at h
    | some pc =>
      rw [hg] at h
      cases pc with
      | startAwait =>
        have hs : processQueueRun wi s (s.ttsQueue.length + 1) = s' := Option.some.inj h
        rw [← hs]
        obtain ⟨hb, hW, hO⟩ := active_worker_facts s wi _ hInv hg
        exact processQueueRun_inv wi (s.ttsQueue.length + 1) s (Nat.lt_succ_self _)
          hb hW hO hInv.writes_lt hInv.writes_sorted hInv.queue_log
      | fetchWait u t => simp at h
      | errTextWait u t =>
        have hs : enterCatch s wi = s' := Option.some.inj h
        rw [← hs]
        exact inv_enterCatch s wi _ hInv hg
      | readWait u t => simp at h
      | endWait pid =>
        dsimp only at h
        by_cases hset : promiseSettled s pid
        · rw [if_pos hset] at h
          by_cases hrej : promiseRejected s pid
          · rw [if_pos hrej] at h
            have hs : enterCatch s wi = s' := Option.some.inj h
            rw [← hs]
            exact inv_enterCatch s wi _ hInv hg
          · rw [if_neg hrej] at h
            have hs : processQueueRun wi
                ({ s with ffplayProc := none, ffplayClosePromise := none })
                (s.ttsQueue.length + 1) = s' := Option.some.inj h
            rw [← hs]
            obtain ⟨hb, hW, hO⟩ := active_worker_facts s wi _ hInv hg
            exact processQueueRun_inv wi (s.ttsQueue.length + 1)
              ({ s with ffplayProc := none, ffplayClosePromise := none })
              (Nat.lt_succ_self _) hb hW (fun wj hj => hO wj hj)
              hInv.writes_lt hInv.writes_sorted hInv.queue_log
        · rw [if_neg hset] at h
          simp at h
      | catchWait pid =>
        dsimp only at h
        by_cases hset : promiseSettled s pid
        · rw [if_pos hset] at h
          have hs : finishWorker
              ({ s with ffplayProc := none, ffplayClosePromise := none }) wi = s' :=
            Option.some.inj h
          rw [← hs]
          obtain ⟨hb, hW, hO⟩ := active_worker_facts s wi _ hInv hg
          exact inv_finishWorker _ wi hW (fun wj hj => hO wj hj)
            hInv.writes_lt hInv.writes_sorted hInv.queue_log
        · rw [if_neg hset] at h
          simp at h
  | fetchOk wi =>
    simp only [stepEv] at h
    cases hg : getWorker s wi with
    | none => rw [hg] at h; simp at h
    | some pc =>
      rw [hg] at h
      cases pc with
      | fetchWait u t =>
        have hs : setWorker s wi (some (WPC.readWait u t)) = s' := Option.some.inj h
        rw [← hs]
        refine inv_swapWorker s wi (WPC.readWait u t) hInv (by rw [hg]; rfl) ?_
        intro u' hu'
        have : u = u' := by simpa [fetchUnit] using hu'
        rw [← this]
        exact hInv.unit_last wi (WPC.fetchWait u t) u hg rfl
      | startAwait => simp at h
      | errTextWait u t => simp at h
      | readWait u t => simp at h
      | endWait pid => simp at h
      | catchWait pid => simp at h
  | fetchErr wi =>
    simp only [stepEv] at h
    cases hg : getWorker s wi with
    | none => rw [hg] at h; simp at h
    | some pc =>
      rw [hg] at h
      cases pc with
      | fetchWait u t =>
        have hs : setWorker s wi (some (WPC.errTextWait u t)) = s' := Option.some.inj h
        rw [← hs]
        refine inv_swapWorker s wi (WPC.errTextWait u t) hInv (by rw [hg]; rfl) ?_
        intro u' hu'
        have : u = u' := by simpa [fetchUnit] using hu'
        rw [← this]
        exact hInv.unit_last wi (WPC.fetchWait u t) u hg rfl
      | startAwait => simp at h
      | errTextWait u t => simp at h
      | readWait u t => simp at h
      | endWait pid => simp at h
      | catchWait pid => simp at h
  | readChunk wi tag =>
    simp only [stepEv] at h
    cases hg : getWorker s wi with
    | none => rw [hg] at h; simp at h
    | some pc =>
      rw [hg] at h
      cases pc with
      | readWait u t =>
        have hs : stdinWrite s u tag = s' := Option.some.inj h
        rw [← hs]
        exact inv_stdinWrite s wi u tag t hInv hg
      | startAwait => simp at h
      | fetchWait u t => simp at h
      | errTextWait u t => simp at h
      | endWait pid => simp at h
      | catchWait pid => simp at h
  | readDone wi =>
    simp only [stepEv] at h
    cases hg : getWorker s wi with
    | none => rw [hg] at h; simp at h
    | some pc =>
      rw [hg] at h
      cases pc with
      | readWait u t =>
        have hs : processQueueRun wi s (s.ttsQueue.length + 1) = s' := Option.some.inj h
        rw [← hs]
        obtain ⟨hb, hW, hO⟩ := active_worker_facts s wi _ hInv hg
        exact processQueueRun_inv wi (s.ttsQueue.length + 1) s (Nat.lt_succ_self _)
          hb hW hO hInv.writes_lt hInv.writes_sorted hInv.queue_log
      | startAwait => simp at h
      | fetchWait u t => simp at h
      | errTextWait u t => simp at h
      | endWait pid => simp at h
      | catchWait pid => simp at h
  | procClose pid =>
    simp only [stepEv] at h
    cases hp : s.procs[pid]? with
    | none => rw [hp] at h; simp at h
    | some p =>
      rw [hp] at h
      dsimp only at h
      by_cases ha : p.alive
      · rw [if_pos ha] at h
        have hs := Option.some.inj h
        rw [← hs]
        exact inv_of_fields_eq s _ rfl rfl rfl rfl rfl rfl hInv
      · rw [if_neg ha] at h
        simp at h
  | procError pid =>
    simp only [stepEv] at h
    cases hp : s.procs[pid]? with
    | none => rw [hp] at h; simp at h
    | some p =>
      rw [hp] at h
      dsimp only at h
      by_cases ha : p.alive
      · rw [if_pos ha] at h
        have hs := Option.some.inj h
        rw [← hs]
        exact inv_of_fields_eq s _ rfl rfl rfl rfl rfl rfl hInv
      · rw [if_neg ha] at h
        simp at h
  | stopResume =>
    simp only [stepEv] at h
    cases hp : s.stopWait with
    | none => rw [hp] at h; simp at h
    | some pid =>
      rw [hp] at h
      dsimp only at h
      by_cases hset : promiseSettled s pid
      · rw [if_pos hset] at h
        have hs := Option.some.inj h
        rw [← hs]
        exact inv_of_fields_eq s _ rfl rfl rfl rfl rfl rfl hInv
      · rw [if_neg hset] at h
        simp at h

/-- Invariant along any run without a cancellation step. -/
theorem inv_runEvs (evs : List Ev) :
    ∀ s s', (∀ e ∈ evs, isAbortEv e = false) → SysInv s →
    runEvs s evs = some s' → SysInv s' := by
  induction evs with
  | nil =>
    intro s s' _ hInv h
    have hs : s = s' := Option.some.inj h
    rw [← hs]
    exact hInv
  | cons e es ih =>
    intro s s' hnab hInv h
    unfold runEvs at h
    cases hst : stepEv s e with
    | none => rw [hst] at h; simp at h
    | some s1 =>
      rw [hst] at h
      exact ih s1 s' (fun e' he' => hnab e' (List.mem_cons_of_mem _ he'))
        (inv_step s s1 e (hnab e (List.mem_cons_self _ _)) hInv hst) h

/-- C6 amended: in every run without a cancellation step, at most one
worker task is live at any time - any two live workers coincide.  The busy
flag is only cleared by the exiting worker itself, and processQueue checks
it synchronously before starting a new worker.  With cancellation the claim
fails (see the counterexample): stopTTS clears the flag while a worker may
still be suspended mid-drain. -/
theorem c6_amended (evs : List Ev) (s : Sys)
    (hnab : ∀ e ∈ evs, isAbortEv e = false)
    (h : runEvs Sys.init evs = some s) :
    ∀ wi wj, (getWorker s wi).isSome = true → (getWorker s wj).isSome = true →
      wi = wj := by
  have hInv := inv_runEvs evs Sys.init s hnab inv_init h
  intro wi wj hi hj
  have hb : s.processingQueue = true := by
    by_cases hx : s.processingQueue
    · exact hx
    · have := hInv.idle_none (by simpa using hx) wi
      rw [this] at hi
      exact Bool.noConfusion hi
  obtain ⟨wa, _, h2⟩ := hInv.busy_one hb
  have hwi : wi = wa := by
    by_cases hx : wi = wa
    · exact hx
    · rw [h2 wi hx] at hi; exact Bool.noConfusion hi
  have hwj : wj = wa := by
    by_cases hx : wj = wa
    · exact hx
    · rw [h2 wj hx] at hj; exact Bool.noConfusion hj
  rw [hwi, hwj]

/-- State reached by one enqueue from the initial state, used as the C6
witness input. -/
def sW6 : Sys :=
  ⟨[QItem.speak txtA], true, some 0, some 0, [⟨true, false, false, false⟩],
   [some WPC.startAwait], none, [], [], 1, false, [txtA]⟩

/-- Witness for C6 amended at the concrete run consisting of one enqueue. -/
theorem c6_amended_witness : (0 : Nat) = 0 ∧ (getWorker sW6 0).isSome = true :=
  ⟨c6_amended [Ev.enqText txtA] sW6 (by decide) (by decide) 0 0 (by decide) (by decide),
   by decide⟩

/-- C3 amended: in every run without a cancellation step, the unit indices
of the sink writes are non-decreasing in write order - all bytes of an
earlier unit are written before any byte of a later unit - and the fetch
log concatenated with the texts still queued equals the enqueue order, so
units are synthesized in exactly the order their texts were enqueued.  With
cancellation the claim fails (see the counterexample): a stale worker can
deliver bytes of an earlier unit into a fresh session after a later unit
has started writing. -/
theorem c3_amended (evs : List Ev) (s : Sys)
    (hnab : ∀ e ∈ evs, isAbortEv e = false)
    (h : runEvs Sys.init evs = some s) :
    List.Pairwise (fun a b => a ≤ b) (s.writes.map (fun w => w.unit))
    ∧ s.fetches ++ speakTexts s.ttsQueue = s.enqLog := by
  have hInv := inv_runEvs evs Sys.init s hnab inv_init h
  exact ⟨hInv.writes_sorted, hInv.queue_log⟩

/-- State reached by a full one-item run, used as the C3 witness input. -/
def sW3 : Sys :=
  ⟨[], false, some 0, some 0, [⟨true, false, false, false⟩],
   [none], none, [txtA], [⟨0, 0, 0, true, false⟩], 1, false, [txtA]⟩

/-- Witness for C3 amended at a concrete run that enqueues, synthesizes and
plays one item. -/
theorem c3_amended_witness :
    List.Pairwise (fun a b => a ≤ b) (sW3.writes.map (fun w => w.unit))
    ∧ sW3.fetches ++ speakTexts sW3.ttsQueue = sW3.enqLog :=
  c3_amended [Ev.enqText txtA, Ev.workerRun 0, Ev.fetchOk 0, Ev.readChunk 0 0,
    Ev.readDone 0] sW3 (by decide) (by decide)

/- ### Quiescence: no progress without a new enqueue -/

/-- When no worker task is live and the busy flag is clear, every event
other than an enqueue keeps the system in that state and leaves the fetch
log unchanged: nothing dequeues or synthesizes a queued item. -/
theorem quiescent_step (s s' : Sys) (e : Ev)
    (hq : ∀ wi, getWorker s wi = none) (hb : s.processingQueue = false)
    (hne : isEnqEv e = false)
    (h : stepEv s e = some s') :
    (∀ wi, getWorker s' wi = none) ∧ s'.processingQueue = false
    ∧ s'.fetches = s.fetches := by
  cases e with
  | enqText t => exact Bool.noConfusion hne
  | enqEnd => exact Bool.noConfusion hne
  | abort =>
    simp only [stepEv] at h
    by_cases ha : s.aborted
    · rw [if_pos ha] at h; simp at h
    · rw [if_neg ha] at h
      have hcc :
          (stdinEnd
            ({ s with aborted := true, ttsQueue := [], processingQueue := false })).ffplayClosePromise
          = s.ffplayClosePromise := rfl
      rw [hcc] at h
      cases hc : s.ffplayClosePromise with
      | some pid =>
        rw [hc] at h
        dsimp only at h
        have hs := Option.some.inj h
        rw [← hs]
        exact ⟨fun wi => hq wi, rfl, rfl⟩
      | none =>
        rw [hc] at h
        dsimp only at h
        have hs := Option.some.inj h
        rw [← hs]
        exact ⟨fun wi => hq wi, rfl, rfl⟩
  | workerRun wi =>
    simp only [stepEv] at h
    rw [hq wi] at h
    simp at h
  | fetchOk wi =>
    simp only [stepEv] at h
    rw [hq wi] at h
    simp at h
  | fetchErr wi =>
    simp only [stepEv] at h
    rw [hq wi] at h
    simp at h
  | readChunk wi tag =>
    simp only [stepEv] at h
    rw [hq wi] at h
    simp at h
  | readDone wi =>
    simp only [stepEv] at h
    rw [hq wi] at h
    simp at h
  | procClose pid =>
    simp only [stepEv] at h
    cases hp : s.procs[pid]? with
    | none => rw [hp] at h; simp at h
    | some p =>
      rw [hp] at h
      dsimp only at h
      by_cases ha : p.alive
      · rw [if_pos ha] at h
        have hs := Option.some.inj h
        rw [← hs]
        exact ⟨fun wi => hq wi, hb, rfl⟩
      · rw [if_neg ha] at h; simp at h
  | procError pid =>
    simp only [stepEv] at h
    cases hp : s.procs[pid]? with
    | none => rw [hp] at h; simp at h
    | some p =>
      rw [hp] at h
      dsimp only at h
      by_cases ha : p.alive
      · rw [if_pos ha] at h
        have hs := Option.some.inj h
        rw [← hs]
        exact ⟨fun wi => hq wi, hb, rfl⟩
      · rw [if_neg ha] at h; simp at h
  | stopResume =>
    simp only [stepEv] at h
    cases hp : s.stopWait with
    | none => rw [hp] at h; simp at h
    | some pid =>
      rw [hp] at h
      dsimp only at h
      by_cases hset : promiseSettled s pid
      · rw [if_pos hset] at h
        have hs := Option.some.inj h
        rw [← hs]
        exact ⟨fun wi => hq wi, hb, rfl⟩
      · rw [if_neg hset] at h; simp at h

/-- C2 amended: after a synthesis failure the worker exits the drain loop
with the busy flag clear and no worker task live; from any such state, as
long as no new item is enqueued, no event changes the fetch log - the
remaining queued items, including the one enqueued before the failure, are
never dequeued or passed to synthesis.  They are only processed when a
subsequent enqueue calls processQueue again, which starts a fresh worker
and a fresh playback process (see the counterexample for the concrete
failing run). -/
theorem c2_amended (s : Sys) (evs : List Ev)
    (hw : ∀ wi, getWorker s wi = none) (hb : s.processingQueue = false)
    (hne : ∀ e ∈ evs, isEnqEv e = false) :
    ∀ s', runEvs s evs = some s' →
    s'.fetches = s.fetches ∧ s'.processingQueue = false
    ∧ ∀ wi, getWorker s' wi = none := by
  induction evs generalizing s with
  | nil =>
    intro s' h
    have hs : s = s' := Option.some.inj h
    rw [← hs]
    exact ⟨rfl, hb, hw⟩
  | cons e es ih =>
    intro s' h
    unfold runEvs at h
    cases hst : stepEv s e with
    | none => rw [hst] at h; simp at h
    | some s1 =>
      rw [hst] at h
      obtain ⟨hq1, hb1, hf1⟩ := quiescent_step s s1 e hw hb
        (hne e (List.mem_cons_self _ _)) hst
      obtain ⟨hf2, hb2, hq2⟩ := ih s1 hq1 hb1
        (fun e' he' => hne e' (List.mem_cons_of_mem _ he')) s' h
      exact ⟨by rw [hf2, hf1], hb2, hq2⟩

/-- The quiescent state after the C2 failure run, used as the witness
input. -/
def sW2 : Sys :=
  ⟨[QItem.speak txtB], false, none, none, [⟨false, false, true, true⟩],
   [none], none, [txtA], [], 1, false, [txtA, txtB]⟩

/-- Witness for C2 amended: from the post-failure state, an abort step (a
non-enqueue event) leaves the fetch log unchanged. -/
theorem c2_amended_witness :
    ({ sW2 with aborted := true, ttsQueue := [] } : Sys).fetches = sW2.fetches :=
  (c2_amended sW2 [Ev.abort] (fun wi => by cases wi <;> rfl) rfl (by decide)
    ({ sW2 with aborted := true, ttsQueue := [] }) (by decide)).1

/- ### Cancellation: once stopTTS has run, no byte reaches the sink -/

/-- The current handle always indexes a spawned process. -/
def WFproc (s : Sys) : Prop :=
  ∀ pid, s.ffplayProc = some pid → pid < s.procs.length

/-- Before the abort fires, every write record carries the pre-abort
mark. -/
def PreAbort (s : Sys) : Prop :=
  s.aborted = false → ∀ w ∈ s.writes, w.afterAbort = false

/-- Any current process has its stdin ended or destroyed. -/
def PostStop (s : Sys) : Prop :=
  ∀ pid, s.ffplayProc = some pid →
    ∃ p, s.procs[pid]? = some p ∧ (p.stdinEnded = true ∨ p.stdinDestroyed = true)

/-- State of the system once the abort has fired: the abort mark is set,
the handle is well formed, any current session is stopped, and every write
made after the abort failed to deliver. -/
def AbortSafe (s : Sys) : Prop :=
  s.aborted = true ∧ WFproc s ∧ PostStop s
  ∧ ∀ w ∈ s.writes, w.afterAbort = true → w.delivered = false

theorem stdinEndProcs_length (cur : Option Nat) (procs : List Proc) :
    (stdinEndProcs cur procs).length = procs.length := by
  unfold stdinEndProcs
  split
  · rfl
  · split
    · rfl
    · split
      · rfl
      · exact List.length_set _ _ _

theorem lget_lt_some {α : Type} (l : List α) (i : Nat) (h : i < l.length) :
    ∃ x, l[i]? = some x := by
  induction l generalizing i with
  | nil => simp at h
  | cons a l ih =>
    cases i with
    | zero => exact ⟨a, by simp⟩
    | succ i =>
      obtain ⟨x, hx⟩ := ih i (by simpa using h)
      exact ⟨x, by simpa using hx⟩

theorem stdinEnd_postStop (s : Sys) (hwf : WFproc s) : PostStop (stdinEnd s) := by
  intro pid hp
  have hp' : s.ffplayProc = some pid := hp
  have hlt := hwf pid hp'
  show ∃ p, (stdinEndProcs s.ffplayProc s.procs)[pid]? = some p
    ∧ (p.stdinEnded = true ∨ p.stdinDestroyed = true)
  rw [hp']
  unfold stdinEndProcs
  dsimp only
  obtain ⟨q, hq⟩ := lget_lt_some s.procs pid hlt
  rw [hq]
  dsimp only
  by_cases hd : q.stdinDestroyed
  · rw [if_pos hd]
    exact ⟨q, hq, Or.inr hd⟩
  · rw [if_neg hd]
    refine ⟨{ q with stdinEnded := true }, ?_, Or.inl rfl⟩
    exact lget_set_self s.procs pid _ hlt

theorem writeRecs_afterAbort (cur : Option Nat) (procs : List Proc) (ab : Bool)
    (u tag : Nat) : ∀ w ∈ writeRecs cur procs ab u tag, w.afterAbort = ab := by
  intro w hw
  unfold writeRecs at hw
  split at hw
  · simp at hw
  · split at hw
    · simp at hw
    · split at hw
      · simp at hw
      · simp at hw
        rw [hw]

theorem writeRecs_stopped (cur : Option Nat) (procs : List Proc) (ab : Bool)
    (u tag : Nat)
    (hps : ∀ pid, cur = some pid →
      ∃ p, procs[pid]? = some p ∧ (p.stdinEnded = true ∨ p.stdinDestroyed = true)) :
    ∀ w ∈ writeRecs cur procs ab u tag, w.delivered = false := by
  intro w hw
  cases cur with
  | none => simp [writeRecs] at hw
  | some pid =>
    obtain ⟨p, hp, hse⟩ := hps pid rfl
    unfold writeRecs at hw
    dsimp only at hw
    rw [hp] at hw
    dsimp only at hw
    by_cases hd : p.stdinDestroyed
    · rw [if_pos hd] at hw
      simp at hw
    · rw [if_neg hd] at hw
      simp at hw
      cases hse with
      | inl he => rw [hw]; simp [he]
      | inr hd2 => exact absurd hd2 hd

/- ### Frame and preservation lemmas for WFproc, PreAbort, AbortSafe -/

theorem processQueueRun_frame (wi : Nat) :
    ∀ (fuel : Nat) (s : Sys),
    (processQueueRun wi s fuel).writes = s.writes
    ∧ (processQueueRun wi s fuel).aborted = s.aborted := by
  intro fuel
  induction fuel with
  | zero => intro s; exact ⟨rfl, rfl⟩
  | succ fuel ih =>
    intro s
    cases hq : s.ttsQueue with
    | nil => rw [processQueueRun_nil wi s fuel hq]; exact ⟨rfl, rfl⟩
    | cons it rest =>
      cases it with
      | speak t => rw [processQueueRun_speak wi s fuel t rest hq]; exact ⟨rfl, rfl⟩
      | endI =>
        cases hc : s.ffplayClosePromise with
        | some pid =>
          rw [processQueueRun_endI_some wi s fuel rest pid hq hc]
          exact ⟨rfl, rfl⟩
        | none =>
          rw [processQueueRun_endI_none wi s fuel rest hq hc]
          exact ih _

theorem processQueueRun_wf (wi : Nat) :
    ∀ (fuel : Nat) (s : Sys), WFproc s → WFproc (processQueueRun wi s fuel) := by
  intro fuel
  induction fuel with
  | zero => intro s hwf; exact hwf
  | succ fuel ih =>
    intro s hwf
    cases hq : s.ttsQueue with
    | nil => rw [processQueueRun_nil wi s fuel hq]; exact fun pid hp => hwf pid hp
    | cons it rest =>
      cases it with
      | speak t =>
        rw [processQueueRun_speak wi s fuel t rest hq]
        exact fun pid hp => hwf pid hp
      | endI =>
        cases hc : s.ffplayClosePromise with
        | some pid =>
          rw [processQueueRun_endI_some wi s fuel rest pid hq hc]
          intro pid' hp'
          show pid' < (stdinEndProcs s.ffplayProc s.procs).length
          rw [stdinEndProcs_length]
          exact hwf pid' hp'
        | none =>
          rw [processQueueRun_endI_none wi s fuel rest hq hc]
          apply ih
          intro pid' hp'
          exact Option.noConfusion hp'

theorem processQueueRun_postStop (wi : Nat) :
    ∀ (fuel : Nat) (s : Sys), WFproc s → PostStop s →
    PostStop (processQueueRun wi s fuel) := by
  intro fuel
  induction fuel with
  | zero => intro s _ hps; exact hps
  | succ fuel ih =>
    intro s hwf hps
    cases hq : s.ttsQueue with
    | nil => rw [processQueueRun_nil wi s fuel hq]; exact fun pid hp => hps pid hp
    | cons it rest =>
      cases it with
      | speak t =>
        rw [processQueueRun_speak wi s fuel t rest hq]
        exact fun pid hp => hps pid hp
      | endI =>
        cases hc : s.ffplayClosePromise with
        | some pid =>
          rw [processQueueRun_endI_some wi s fuel rest pid hq hc]
          have h1 : PostStop (stdinEnd ({ s with ttsQueue := rest })) :=
            stdinEnd_postStop ({ s with ttsQueue := rest }) (fun pid' hp' => hwf pid' hp')
          exact fun pid' hp' => h1 pid' hp'
        | none =>
          rw [processQueueRun_endI_none wi s fuel rest hq hc]
          apply ih
          · intro pid' hp'
            exact Option.noConfusion hp'
          · intro pid' hp'
            exact Option.noConfusion hp'

theorem processQueueRun_abortSafe (wi : Nat) (fuel : Nat) (s : Sys)
    (hAS : AbortSafe s) : AbortSafe (processQueueRun wi s fuel) := by
  obtain ⟨ha, hwf, hps, hwo⟩ := hAS
  obtain ⟨hwr, hab⟩ := processQueueRun_frame wi fuel s
  refine ⟨by rw [hab]; exact ha, processQueueRun_wf wi fuel s hwf,
    processQueueRun_postStop wi fuel s hwf hps, ?_⟩
  intro w hw
  rw [hwr] at hw
  exact hwo w hw

theorem enterCatch_abortSafe (s : Sys) (wi : Nat) (hAS : AbortSafe s) :
    AbortSafe (enterCatch s wi) := by
  obtain ⟨ha, hwf, hps, hwo⟩ := hAS
  unfold enterCatch
  dsimp only
  cases hc : (stdinEnd s).ffplayClosePromise with
  | some pid =>
    refine ⟨ha, ?_, ?_, hwo⟩
    · intro pid' hp'
      show pid' < (stdinEndProcs s.ffplayProc s.procs).length
      rw [stdinEndProcs_length]
      exact hwf pid' hp'
    · have h1 := stdinEnd_postStop s hwf
      exact fun pid' hp' => h1 pid' hp'
  | none =>
    refine ⟨ha, ?_, ?_, hwo⟩
    · intro pid' hp'
      exact Option.noConfusion hp'
    · intro pid' hp'
      exact Option.noConfusion hp'

theorem stdinWrite_abortSafe (s : Sys) (u tag : Nat) (hAS : AbortSafe s) :
    AbortSafe (stdinWrite s u tag) := by
  obtain ⟨ha, hwf, hps, hwo⟩ := hAS
  refine ⟨ha, hwf, hps, ?_⟩
  intro w hw haa
  have hw' : w ∈ s.writes ++ writeRecs s.ffplayProc s.procs s.aborted u tag := hw
  rw [List.mem_append] at hw'
  cases hw' with
  | inl h1 => exact hwo w h1 haa
  | inr h2 => exact writeRecs_stopped s.ffplayProc s.procs s.aborted u tag hps w h2

/-- Once stopTTS has run, every event other than an enqueue keeps the
system abort-safe: in particular any write performed by a still-live read
loop lands on an ended or destroyed stdin and is not delivered. -/
theorem abortSafe_step (s s' : Sys) (e : Ev) (hne : isEnqEv e = false)
    (hAS : AbortSafe s) (h : stepEv s e = some s') : AbortSafe s' := by
  cases e with
  | enqText t => exact Bool.noConfusion hne
  | enqEnd => exact Bool.noConfusion hne
  | abort =>
    simp only [stepEv] at h
    rw [if_pos hAS.1] at h
    simp at h
  | workerRun wi =>
    simp only [stepEv] at h
    cases hg : getWorker s wi with
    | none => rw [hg] at h; simp at h
    | some pc =>
      rw [hg] at h
      cases pc with
      | startAwait =>
        have hs := Option.some.inj h
        rw [← hs]
        exact processQueueRun_abortSafe wi _ s hAS
      | fetchWait u t => simp at h
      | errTextWait u t =>
        have hs := Option.some.inj h
        rw [← hs]
        exact enterCatch_abortSafe s wi hAS
      | readWait u t => simp at h
      | endWait pid =>
        dsimp only at h
        by_cases hset : promiseSettled s pid
        · rw [if_pos hset] at h
          by_cases hrej : promiseRejected s pid
          · rw [if_pos hrej] at h
            have hs := Option.some.inj h
            rw [← hs]
            exact enterCatch_abortSafe s wi hAS
          · rw [if_neg hrej] at h
            have hs := Option.some.inj h
            rw [← hs]
            apply processQueueRun_abortSafe
            obtain ⟨ha, _, _, hwo⟩ := hAS
            exact ⟨ha, fun pid' hp' => Option.noConfusion hp',
              fun pid' hp' => Option.noConfusion hp', hwo⟩
        · rw [if_neg hset] at h
          simp at h
      | catchWait pid =>
        dsimp only at h
        by_cases hset : promiseSettled s pid
        · rw [if_pos hset] at h
          have hs := Option.some.inj h
          rw [← hs]
          obtain ⟨ha, _, _, hwo⟩ := hAS
          exact ⟨ha, fun pid' hp' => Option.noConfusion hp',
            fun pid' hp' => Option.noConfusion hp', hwo⟩
        · rw [if_neg hset] at h
          simp at h
  | fetchOk wi =>
    simp only [stepEv] at h
    cases hg : getWorker s wi with
    | none => rw [hg] at h; simp at h
    | some pc =>
      rw [hg] at h
      cases pc with
      | fetchWait u t =>
        have hs := Option.some.inj h
        rw [← hs]
        obtain ⟨ha, hwf, hps, hwo⟩ := hAS
        exact ⟨ha, fun pid hp => hwf pid hp, fun pid hp => hps pid hp, hwo⟩
      | startAwait => simp at h
      | errTextWait u t => simp at h
      | readWait u t => simp at h
      | endWait pid => simp at h
      | catchWait pid => simp at h
  | fetchErr wi =>
    simp only [stepEv] at h
    cases hg : getWorker s wi with
    | none => rw [hg] at h; simp at h
    | some pc =>
      rw [hg] at h
      cases pc with
      | fetchWait u t =>
        have hs := Option.some.inj h
        rw [← hs]
        obtain ⟨ha, hwf, hps, hwo⟩ := hAS
        exact ⟨ha, fun pid hp => hwf pid hp, fun pid hp => hps pid hp, hwo⟩
      | startAwait => simp at h
      | errTextWait u t => simp at h
      | readWait u t => simp at h
      | endWait pid => simp at h
      | catchWait pid => simp at h
  | readChunk wi tag =>
    simp only [stepEv] at h
    cases hg : getWorker s wi with
    | none => rw [hg] at h; simp at h
    | some pc =>
      rw [hg] at h
      cases pc with
      | readWait u t =>
        have hs := Option.some.inj h
        rw [← hs]
        exact stdinWrite_abortSafe s u tag hAS
      | startAwait => simp at h
      | fetchWait u t => simp at h
      | errTextWait u t => simp at h
      | endWait pid => simp at h
      | catchWait pid => simp at h
  | readDone wi =>
    simp only [stepEv] at h
    cases hg : getWorker s wi with
    | none => rw [hg] at h; simp at h
    | some pc =>
      rw [hg] at h
      cases pc with
      | readWait u t =>
        have hs := Option.some.inj h
        rw [← hs]
        exact processQueueRun_abortSafe wi _ s hAS
      | startAwait => simp at h
      | fetchWait u t => simp at h
      | errTextWait u t => simp at h
      | endWait pid => simp at h
      | catchWait pid => simp at h
  | procClose pid =>
    simp only [stepEv] at h
    cases hp : s.procs[pid]? with
    | none => rw [hp] at h; simp at h
    | some p =>
      rw [hp] at h
      dsimp only at h
      by_cases ha : p.alive
      · rw [if_pos ha] at h
        have hs := Option.some.inj h
        rw [← hs]
        obtain ⟨hab, hwf, hps, hwo⟩ := hAS
        refine ⟨hab, ?_, ?_, hwo⟩
        · intro pid' hp'
          show pid' < (s.procs.set pid _).length
          rw [List.length_set]
          exact hwf pid' hp'
        · intro pid' hp'
          obtain ⟨q, hq, hse⟩ := hps pid' hp'
          by_cases hpp : pid = pid'
          · subst hpp
            rw [hp] at hq
            have hqq : p = q := Option.some.inj hq
            refine ⟨{ p with alive := false, stdinDestroyed := true }, ?_, Or.inr rfl⟩
            exact lget_set_self s.procs pid _ (lget_some_lt _ _ _ hp)
          · exact ⟨q, by rw [lget_set_other _ _ _ _ hpp]; exact hq, hse⟩
      · rw [if_neg ha] at h
        simp at h
  | procError pid =>
    simp only [stepEv] at h
    cases hp : s.procs[pid]? with
    | none => rw [hp] at h; simp at h
    | some p =>
      rw [hp] at h
      dsimp only at h
      by_cases ha : p.alive
      · rw [if_pos ha] at h
        have hs := Option.some.inj h
        rw [← hs]
        obtain ⟨hab, hwf, hps, hwo⟩ := hAS
        refine ⟨hab, ?_, ?_, hwo⟩
        · intro pid' hp'
          show pid' < (s.procs.set pid _).length
          rw [List.length_set]
          exact hwf pid' hp'
        · intro pid' hp'
          obtain ⟨q, hq, hse⟩ := hps pid' hp'
          by_cases hpp : pid = pid'
          · subst hpp
            refine ⟨{ p with alive := false, errored := true, stdinDestroyed := true }, ?_,
              Or.inr rfl⟩
            exact lget_set_self s.procs pid _ (lget_some_lt _ _ _ hp)
          · exact ⟨q, by rw [lget_set_other _ _ _ _ hpp]; exact hq, hse⟩
      · rw [if_neg ha] at h
        simp at h
  | stopResume =>
    simp only [stepEv] at h
    cases hp : s.stopWait with
    | none => rw [hp] at h; simp at h
    | some pid =>
      rw [hp] at h
      dsimp only at h
      by_cases hset : promiseSettled s pid
      · rw [if_pos hset] at h
        have hs := Option.some.inj h
        rw [← hs]
        obtain ⟨hab, _, _, hwo⟩ := hAS
        exact ⟨hab, fun pid' hp' => Option.noConfusion hp',
          fun pid' hp' => Option.noConfusion hp', hwo⟩
      · rw [if_neg hset] at h
        simp at h

theorem startFfplay_eq_some (X : Sys) (pid : Nat) (h : X.ffplayProc = some pid) :
    startFfplay X = X := by
  unfold startFfplay
  rw [h]

theorem startFfplay_eq_none (X : Sys) (h : X.ffplayProc = none) :
    startFfplay X
      = { X with procs := X.procs ++ [⟨true, false, false, false⟩],
                 ffplayProc := some X.procs.length,
                 ffplayClosePromise := some X.procs.length,
                 spawns := X.spawns + 1 } := by
  unfold startFfplay
  rw [h]

theorem enterCatch_frame (s : Sys) (wi : Nat) :
    (enterCatch s wi).writes = s.writes ∧ (enterCatch s wi).aborted = s.aborted := by
  unfold enterCatch
  dsimp only
  split
  · exact ⟨rfl, rfl⟩
  · exact ⟨rfl, rfl⟩

theorem enterCatch_wf (s : Sys) (wi : Nat) (hwf : WFproc s) :
    WFproc (enterCatch s wi) := by
  unfold enterCatch
  dsimp only
  split
  · intro pid hp
    show pid < (stdinEndProcs s.ffplayProc s.procs).length
    rw [stdinEndProcs_length]
    exact hwf pid hp
  · intro pid hp
    exact Option.noConfusion hp

theorem preab_of_eq (s s' : Sys) (hwr : s'.writes = s.writes)
    (hab : s'.aborted = s.aborted) (hpa : PreAbort s) : PreAbort s' := by
  intro hf w hw
  exact hpa (by rw [← hab]; exact hf) w (by rw [← hwr]; exact hw)

theorem preab_stdinWrite (s : Sys) (u tag : Nat) (hpa : PreAbort s) :
    PreAbort (stdinWrite s u tag) := by
  intro hf w hw
  have hf' : s.aborted = false := hf
  have hw' : w ∈ s.writes ++ writeRecs s.ffplayProc s.procs s.aborted u tag := hw
  rw [List.mem_append] at hw'
  cases hw' with
  | inl h1 => exact hpa hf' w h1
  | inr h2 =>
    have hx := writeRecs_afterAbort s.ffplayProc s.procs s.aborted u tag w h2
    rw [hx]
    exact hf'

theorem wf_preab_enqueue_aux (s s1 : Sys) (hwf : WFproc s) (hpa : PreAbort s)
    (hfp : s1.ffplayProc = s.ffplayProc) (hpr : s1.procs = s.procs)
    (hwr : s1.writes = s.writes) (hab : s1.aborted = s.aborted) :
    WFproc (if s1.processingQueue then s1
      else { startFfplay ({ s1 with processingQueue := true }) with
             workers := (startFfplay ({ s1 with processingQueue := true })).workers
               ++ [some WPC.startAwait] })
    ∧ PreAbort (if s1.processingQueue then s1
      else { startFfplay ({ s1 with processingQueue := true }) with
             workers := (startFfplay ({ s1 with processingQueue := true })).workers
               ++ [some WPC.startAwait] }) := by
  by_cases hb : s1.processingQueue
  · rw [if_pos hb]
    constructor
    · intro pid hp
      rw [hpr]
      exact hwf pid (by rw [← hfp]; exact hp)
    · exact preab_of_eq s s1 hwr hab hpa
  · rw [if_neg hb]
    have hdis : s1.ffplayProc = none ∨ ∃ pid0, s1.ffplayProc = some pid0 := by
      cases hz : s1.ffplayProc with
      | none => exact Or.inl rfl
      | some p => exact Or.inr ⟨p, rfl⟩
    rcases hdis with hfp1 | ⟨pid0, hfp1⟩
    · have he := startFfplay_eq_none ({ s1 with processingQueue := true }) hfp1
      rw [he]
      constructor
      · intro pid hp
        have hp' : some s1.procs.length = some pid := hp
        have hlen : s1.procs.length = pid := Option.some.inj hp'
        show pid < (s1.procs ++ [(⟨true, false, false, false⟩ : Proc)]).length
        rw [List.length_append, ← hlen]
        simp
      · exact preab_of_eq s _ hwr hab hpa
    · have he := startFfplay_eq_some ({ s1 with processingQueue := true }) pid0 hfp1
      rw [he]
      constructor
      · intro pid hp
        have hp' : s1.ffplayProc = some pid := hp
        rw [show ({ s1 with processingQueue := true } : Sys).procs = s.procs from hpr]
        exact hwf pid (by rw [← hfp]; exact hp')
      · exact preab_of_eq s _ hwr hab hpa

theorem wf_preab_enqueue (s : Sys) (it : QItem) (hwf : WFproc s) (hpa : PreAbort s) :
    WFproc (enqueueItem s it) ∧ PreAbort (enqueueItem s it) := by
  cases it with
  | speak t =>
    exact wf_preab_enqueue_aux s
      ({ s with ttsQueue := s.ttsQueue ++ [QItem.speak t], enqLog := s.enqLog ++ [t] })
      hwf hpa rfl rfl rfl rfl
  | endI =>
    exact wf_preab_enqueue_aux s
      ({ s with ttsQueue := s.ttsQueue ++ [QItem.endI] })
      hwf hpa rfl rfl rfl rfl

/-- WFproc and PreAbort are preserved by every step. -/
theorem wf_preab_step (s s' : Sys) (e : Ev)
    (hwf : WFproc s) (hpa : PreAbort s) (h : stepEv s e = some s') :
    WFproc s' ∧ PreAbort s' := by
  cases e with
  | enqText t =>
    have hs : enqueueItem s (QItem.speak t) = s' := Option.some.inj h
    rw [← hs]
    exact wf_preab_enqueue s (QItem.speak t) hwf hpa
  | enqEnd =>
    have hs : enqueueItem s QItem.endI = s' := Option.some.inj h
    rw [← hs]
    exact wf_preab_enqueue s QItem.endI hwf hpa
  | abort =>
    simp only [stepEv] at h
    by_cases ha : s.aborted
    · rw [if_pos ha] at h; simp at h
    · rw [if_neg ha] at h
      have hcc :
          (stdinEnd
            ({ s with aborted := true, ttsQueue := [], processingQueue := false })).ffplayClosePromise
          = s.ffplayClosePromise := rfl
      rw [hcc] at h
      cases hc : s.ffplayClosePromise with
      | some pid =>
        rw [hc] at h
        dsimp only at h
        have hs := Option.some.inj h
        rw [← hs]
        constructor
        · intro pid' hp'
          show pid' < (stdinEndProcs s.ffplayProc s.procs).length
          rw [stdinEndProcs_length]
          exact hwf pid' hp'
        · intro hf
          have hx : (true : Bool) = false := hf
          exact Bool.noConfusion hx
      | none =>
        rw [hc] at h
        dsimp only at h
        have hs := Option.some.inj h
        rw [← hs]
        constructor
        · intro pid' hp'
          exact Option.noConfusion hp'
        · intro hf
          have hx : (true : Bool) = false := hf
          exact Bool.noConfusion hx
  | workerRun wi =>
    simp only [stepEv] at h
    cases hg : getWorker s wi with
    | none => rw [hg] at h; simp at h
    | some pc =>
      rw [hg] at h
      cases pc with
      | startAwait =>
        have hs := Option.some.inj h
        rw [← hs]
        obtain ⟨hwr, hab⟩ := processQueueRun_frame wi (s.ttsQueue.length + 1) s
        exact ⟨processQueueRun_wf wi _ s hwf, preab_of_eq s _ hwr hab hpa⟩
      | fetchWait u t => simp at h
      | errTextWait u t =>
        have hs := Option.some.inj h
        rw [← hs]
        obtain ⟨hwr, hab⟩ := enterCatch_frame s wi
        exact ⟨enterCatch_wf s wi hwf, preab_of_eq s _ hwr hab hpa⟩
      | readWait u t => simp at h
      | endWait pid =>
        dsimp only at h
        by_cases hset : promiseSettled s pid
        · rw [if_pos hset] at h
          by_cases hrej : promiseRejected s pid
          · rw [if_pos hrej] at h
            have hs := Option.some.inj h
            rw [← hs]
            obtain ⟨hwr, hab⟩ := enterCatch_frame s wi
            exact ⟨enterCatch_wf s wi hwf, preab_of_eq s _ hwr hab hpa⟩
          · rw [if_neg hrej] at h
            have hs := Option.some.inj h
            rw [← hs]
            obtain ⟨hwr, hab⟩ := processQueueRun_frame wi (s.ttsQueue.length + 1)
              ({ s with ffplayProc := none, ffplayClosePromise := none })
            refine ⟨processQueueRun_wf wi _ _ ?_, ?_⟩
            · intro pid' hp'
              exact Option.noConfusion hp'
            · exact preab_of_eq s _ hwr hab hpa
        · rw [if_neg hset] at h
          simp at h
      | catchWait pid =>
        dsimp only at h
        by_cases hset : promiseSettled s pid
        · rw [if_pos hset] at h
          have hs := Option.some.inj h
          rw [← hs]
          constructor
          · intro pid' hp'
            exact Option.noConfusion hp'
          · exact preab_of_eq s _ rfl rfl hpa
        · rw [if_neg hset] at h
          simp at h
  | fetchOk wi =>
    simp only [stepEv] at h
    cases hg : getWorker s wi with
    | none => rw [hg] at h; simp at h
    | some pc =>
      rw [hg] at h
      cases pc with
      | fetchWait u t =>
        have hs := Option.some.inj h
        rw [← hs]
        exact ⟨fun pid hp => hwf pid hp, preab_of_eq s _ rfl rfl hpa⟩
      | startAwait => simp at h
      | errTextWait u t => simp at h
      | readWait u t => simp at h
      | endWait pid => simp at h
      | catchWait pid => simp at h
  | fetchErr wi =>
    simp only [stepEv] at h
    cases hg : getWorker s wi with
    | none => rw [hg] at h; simp at h
    | some pc =>
      rw [hg] at h
      cases pc with
      | fetchWait u t =>
        have hs := Option.some.inj h
        rw [← hs]
        exact ⟨fun pid hp => hwf pid hp, preab_of_eq s _ rfl rfl hpa⟩
      | startAwait => simp at h
      | errTextWait u t => simp at h
      | readWait u t => simp at h
      | endWait pid => simp at h
      | catchWait pid => simp at h
  | readChunk wi tag =>
    simp only [stepEv] at h
    cases hg : getWorker s wi with
    | none => rw [hg] at h; simp at h
    | some pc =>
      rw [hg] at h
      cases pc with
      | readWait u t =>
        have hs := Option.some.inj h
        rw [← hs]
        exact ⟨fun pid hp => hwf pid hp, preab_stdinWrite s u tag hpa⟩
      | startAwait => simp at h
      | fetchWait u t => simp at h
      | errTextWait u t => simp at h
      | endWait pid => simp at h
      | catchWait pid => simp at h
  | readDone wi =>
    simp only [stepEv] at h
    cases hg : getWorker s wi with
    | none => rw [hg] at h; simp at h
    | some pc =>
      rw [hg] at h
      cases pc with
      | readWait u t =>
        have hs := Option.some.inj h
        rw [← hs]
        obtain ⟨hwr, hab⟩ := processQueueRun_frame wi (s.ttsQueue.length + 1) s
        exact ⟨processQueueRun_wf wi _ s hwf, preab_of_eq s _ hwr hab hpa⟩
      | startAwait => simp at h
      | fetchWait u t => simp at h
      | errTextWait u t => simp at h
      | endWait pid => simp at h
      | catchWait pid => simp at h
  | procClose pid =>
    simp only [stepEv] at h
    cases hp : s.procs[pid]? with
    | none => rw [hp] at h; simp at h
    | some p =>
      rw [hp] at h
      dsimp only at h
      by_cases ha : p.alive
      · rw [if_pos ha] at h
        have hs := Option.some.inj h
        rw [← hs]
        constructor
        · intro pid' hp'
          show pid' < (s.procs.set pid _).length
          rw [List.length_set]
          exact hwf pid' hp'
        · exact preab_of_eq s _ rfl rfl hpa
      · rw [if_neg ha] at h
        simp at h
  | procError pid =>
    simp only [stepEv] at h
    cases hp : s.procs[pid]? with
    | none => rw [hp] at h; simp at h
    | some p =>
      rw [hp] at h
      dsimp only at h
      by_cases ha : p.alive
      · rw [if_pos ha] at h
        have hs := Option.some.inj h
        rw [← hs]
        constructor
        · intro pid' hp'
          show pid' < (s.procs.set pid _).length
          rw [List.length_set]
          exact hwf pid' hp'
        · exact preab_of_eq s _ rfl rfl hpa
      · rw [if_neg ha] at h
        simp at h
  | stopResume =>
    simp only [stepEv] at h
    cases hp : s.stopWait with
    | none => rw [hp] at h; simp at h
    | some pid =>
      rw [hp] at h
      dsimp only at h
      by_cases hset : promiseSettled s pid
      · rw [if_pos hset] at h
        have hs := Option.some.inj h
        rw [← hs]
        constructor
        · intro pid' hp'
          exact Option.noConfusion hp'
        · exact preab_of_eq s _ rfl rfl hpa
      · rw [if_neg hset] at h
        simp at h

/-- The abort step itself - stopTTS up to its first suspension - clears the
queue, resets the busy flag and stops the current session synchronously,
and every write record present so far predates the abort. -/
theorem abort_establish (s s' : Sys) (hwf : WFproc s) (hpa : PreAbort s)
    (h : stepEv s Ev.abort = some s') :
    AbortSafe s' ∧ s'.ttsQueue = [] ∧ s'.processingQueue = false := by
  simp only [stepEv] at h
  by_cases ha : s.aborted
  · rw [if_pos ha] at h; simp at h
  · rw [if_neg ha] at h
    have ha' : s.aborted = false := by simpa using ha
    have hcc :
        (stdinEnd
          ({ s with aborted := true, ttsQueue := [], processingQueue := false })).ffplayClosePromise
        = s.ffplayClosePromise := rfl
    rw [hcc] at h
    have hps :
        PostStop
          (stdinEnd ({ s with aborted := true, ttsQueue := [], processingQueue := false })) :=
      stdinEnd_postStop _ (fun pid hp => hwf pid hp)
    cases hc : s.ffplayClosePromise with
    | some pid =>
      rw [hc] at h
      dsimp only at h
      have hs := Option.some.inj h
      rw [← hs]
      refine ⟨⟨rfl, ?_, ?_, ?_⟩, rfl, rfl⟩
      · intro pid' hp'
        show pid' < (stdinEndProcs s.ffplayProc s.procs).length
        rw [stdinEndProcs_length]
        exact hwf pid' hp'
      · intro pid' hp'
        exact hps pid' hp'
      · intro w hw hwa
        have hx := hpa ha' w hw
        rw [hx] at hwa
        exact Bool.noConfusion hwa
    | none =>
      rw [hc] at h
      dsimp only at h
      have hs := Option.some.inj h
      rw [← hs]
      refine ⟨⟨rfl, ?_, ?_, ?_⟩, rfl, rfl⟩
      · intro pid' hp'
        exact Option.noConfusion hp'
      · intro pid' hp'
        exact Option.noConfusion hp'
      · intro w hw hwa
        have hx := hpa ha' w hw
        rw [hx] at hwa
        exact Bool.noConfusion hwa

theorem runEvs_append (s : Sys) (l1 l2 : List Ev) :
    runEvs s (l1 ++ l2) = (runEvs s l1).bind (fun s1 => runEvs s1 l2) := by
  induction l1 generalizing s with
  | nil => rfl
  | cons e es ih =>
    show (match stepEv s e with
      | some s1 => runEvs s1 (es ++ l2)
      | none => none)
      = (match stepEv s e with
        | some s1 => runEvs s1 es
        | none => none).bind (fun s1 => runEvs s1 l2)
    cases stepEv s e with
    | none => rfl
    | some s1 => simpa using ih s1

theorem wf_preab_runEvs (evs : List Ev) :
    ∀ s s', WFproc s → PreAbort s → runEvs s evs = some s' →
    WFproc s' ∧ PreAbort s' := by
  induction evs with
  | nil =>
    intro s s' hwf hpa h
    have hs : s = s' := Option.some.inj h
    rw [← hs]
    exact ⟨hwf, hpa⟩
  | cons e es ih =>
    intro s s' hwf hpa h
    unfold runEvs at h
    cases hst : stepEv s e with
    | none => rw [hst] at h; simp at h
    | some s1 =>
      rw [hst] at h
      obtain ⟨hwf1, hpa1⟩ := wf_preab_step s s1 e hwf hpa hst
      exact ih s1 s' hwf1 hpa1 h

theorem abortSafe_runEvs (evs : List Ev) :
    ∀ s s', (∀ e ∈ evs, isEnqEv e = false) → AbortSafe s →
    runEvs s evs = some s' → AbortSafe s' := by
  induction evs with
  | nil =>
    intro s s' _ hAS h
    have hs : s = s' := Option.some.inj h
    rw [← hs]
    exact hAS
  | cons e es ih =>
    intro s s' hne hAS h
    unfold runEvs at h
    cases hst : stepEv s e with
    | none => rw [hst] at h; simp at h
    | some s1 =>
      rw [hst] at h
      exact ih s1 s' (fun e' he' => hne e' (List.mem_cons_of_mem _ he'))
        (abortSafe_step s s1 e (hne e (List.mem_cons_self _ _)) hAS hst) h

/-- C5 amended: when the cancellation fires, the abort step itself - with
no intervening suspension - clears the pending queue, resets the busy flag
and ends the stdin of any current playback session.  In every continuation
that contains no further enqueue, every write that happens after the abort
fails to deliver: chunks still arriving from the in-flight synthesis read
loop land on an ended or destroyed stdin and never reach the player.  If a
new item is enqueued after the cancellation the guarantee is lost (see the
counterexample): a fresh session starts and in-flight chunks are delivered
to it. -/
theorem c5_amended (evs1 evs2 : List Ev) (s1 s2 : Sys)
    (h1 : runEvs Sys.init (evs1 ++ [Ev.abort]) = some s1)
    (h2 : runEvs s1 evs2 = some s2)
    (hne : ∀ e ∈ evs2, isEnqEv e = false) :
    s1.ttsQueue = [] ∧ s1.processingQueue = false
    ∧ (∀ pid, s1.ffplayProc = some pid →
        ∃ p, s1.procs[pid]? = some p ∧ (p.stdinEnded = true ∨ p.stdinDestroyed = true))
    ∧ ∀ w ∈ s2.writes, w.afterAbort = true → w.delivered = false := by
  rw [runEvs_append] at h1
  cases h0 : runEvs Sys.init evs1 with
  | none => rw [h0] at h1; simp at h1
  | some s0 =>
    rw [h0] at h1
    have hstep : stepEv s0 Ev.abort = some s1 := by
      have h1' : runEvs s0 [Ev.abort] = some s1 := h1
      unfold runEvs at h1'
      cases hst : stepEv s0 Ev.abort with
      | none => rw [hst] at h1'; simp at h1'
      | some sx =>
        rw [hst] at h1'
        have hx : sx = s1 := Option.some.inj h1'
        subst hx
        rfl
    have hwf0 : WFproc Sys.init := fun pid hp => Option.noConfusion hp
    have hpa0 : PreAbort Sys.init := by
      intro _ w hw
      simp [Sys.init] at hw
    obtain ⟨hwf, hpa⟩ := wf_preab_runEvs evs1 Sys.init s0 hwf0 hpa0 h0
    obtain ⟨hAS1, hq1, hb1⟩ := abort_establish s0 s1 hwf hpa hstep
    have hAS2 := abortSafe_runEvs evs2 s1 s2 hne hAS1 h2
    exact ⟨hq1, hb1, fun pid hp => hAS1.2.2.1 pid hp, hAS2.2.2.2⟩

/-- Witness for C5 amended at the immediate abort of a fresh response. -/
theorem c5_amended_witness :
    ({ Sys.init with aborted := true } : Sys).ttsQueue = []
    ∧ ({ Sys.init with aborted := true } : Sys).processingQueue = false :=
  ⟨(c5_amended [] [] ({ Sys.init with aborted := true })
      ({ Sys.init with aborted := true }) (by decide) (by decide) (by decide)).1,
   (c5_amended [] [] ({ Sys.init with aborted := true })
      ({ Sys.init with aborted := true }) (by decide) (by decide) (by decide)).2.1⟩
